import Mathlib

/-!
# Caching transport of `cachingproxy` (`src/proxy.go`)

A shallow embedding of `getKey` and `CachingTransport.RoundTrip`, together with
executable models of the library calls they make (`strconv.ParseBool`,
`http.Header.Get`, `io.Copy` over an `io.TeeReader`, `Request.MultipartReader` with
`mime.ParseMediaType`, `mime/multipart.Reader`, the `ristretto` cache with its
buffered `Set`), followed by the theorems that settle the specification claims
C1 .. C10.

Go strings and byte slices are both modelled as `Bytes`. A run-time panic is
modelled as a result of its own, `Error.nilPointerDereference`.
-/

namespace CachingProxy

/-! ## Bytes and small string helpers -/

/-- A Go `string` or `[]byte`: a finite sequence of octets. -/
abbrev Bytes := List UInt8

/-- The octets of an ASCII literal. -/
def bytesOf (s : String) : Bytes := s.toList.map (fun c => c.toNat.toUInt8)

/-- Go `strings.HasPrefix` / `bytes.HasPrefix`. -/
def hasPrefix (s pre : Bytes) : Bool := pre.isPrefixOf s

/-- Go `bytes.Index`: offset of the first occurrence of `sep` in `s`. -/
def index (s sep : Bytes) : Option Nat :=
  match s with
  | [] => if sep.isEmpty then some 0 else none
  | c :: t =>
    if sep.isPrefixOf (c :: t) then some 0
    else (index t sep).map (· + 1)

/-- Go `bytes.LastIndexByte`. -/
def lastIndexByte (s : Bytes) (c : UInt8) : Option Nat :=
  match s with
  | [] => none
  | x :: t =>
    match lastIndexByte t c with
    | some i => some (i + 1)
    | none => if x = c then some 0 else none

/-- ASCII lower-casing: what `strings.ToLower` does to ASCII text, and the folding
under which `strings.EqualFold` compares a string with an ASCII literal that holds
neither `k` nor `s`. -/
def toLower (s : Bytes) : Bytes :=
  s.map (fun c => if 65 ≤ c ∧ c ≤ 90 then c + 32 else c)

/-- The rune loop of `stringsToLower`; `skip` counts the bytes still to be dropped
of a rune that has already been mapped. -/
def lowerRunes (skip : Nat) : Bytes → Bytes
  | [] => []
  | c :: t =>
    match skip with
    | k + 1 => lowerRunes k t
    | 0 =>
      if hasPrefix (c :: t) [0xC4, 0xB0] then 0x69 :: lowerRunes 1 t
      else if hasPrefix (c :: t) [0xE2, 0x84, 0xAA] then 0x6B :: lowerRunes 2 t
      else (if 65 ≤ c ∧ c ≤ 90 then c + 32 else c) :: lowerRunes 0 t

/-- Go `strings.ToLower` on UTF-8 text, as far as the result can be ASCII: ASCII
capitals are lowered, and so are the two runes whose lower case is an ASCII letter,
U+0130 (to `i`) and U+212A (to `k`). Every other byte outside ASCII is kept as
written; Go maps the rune it belongs to (an invalid byte included) to a rune outside
ASCII as well. -/
def stringsToLower (s : Bytes) : Bytes := lowerRunes 0 s

/-- ASCII white space, as `unicode.IsSpace` acts on ASCII text. -/
def isSpace (c : UInt8) : Bool :=
  c = 32 || c = 9 || c = 10 || c = 11 || c = 12 || c = 13

/-- The UTF-8 encodings of the runes outside ASCII that `unicode.IsSpace` accepts:
U+0085, U+00A0, U+1680, U+2000 .. U+200A, U+2028, U+2029, U+202F, U+205F, U+3000. -/
def unicodeSpaces : List Bytes :=
  [[0xC2, 0x85], [0xC2, 0xA0], [0xE1, 0x9A, 0x80], [0xE2, 0x80, 0x80], [0xE2, 0x80, 0x81],
   [0xE2, 0x80, 0x82], [0xE2, 0x80, 0x83], [0xE2, 0x80, 0x84], [0xE2, 0x80, 0x85],
   [0xE2, 0x80, 0x86], [0xE2, 0x80, 0x87], [0xE2, 0x80, 0x88], [0xE2, 0x80, 0x89],
   [0xE2, 0x80, 0x8A], [0xE2, 0x80, 0xA8], [0xE2, 0x80, 0xA9], [0xE2, 0x80, 0xAF],
   [0xE2, 0x81, 0x9F], [0xE3, 0x80, 0x80]]

/-- The number of bytes of the white-space rune at the head of `s`, `0` when `s`
does not start with one. With `rev` set, `s` is a string read from its end. -/
def leadingSpace (rev : Bool) (s : Bytes) : Nat :=
  match s with
  | [] => 0
  | c :: _ =>
    if isSpace c then 1
    else
      match unicodeSpaces.find? (fun e => hasPrefix s (if rev then e.reverse else e)) with
      | some e => e.length
      | none => 0

/-- Drop white-space runes from the head of a string; `skip` counts the bytes still
to be dropped of the rune found last. -/
def dropSpaces (rev : Bool) (skip : Nat) : Bytes → Bytes
  | [] => []
  | c :: t =>
    match skip with
    | k + 1 => dropSpaces rev k t
    | 0 =>
      match leadingSpace rev (c :: t) with
      | 0 => c :: t
      | k + 1 => dropSpaces rev k t

/-- Go `strings.TrimLeftFunc(s, unicode.IsSpace)`. -/
def trimLeftSpace (s : Bytes) : Bytes := dropSpaces false 0 s

/-- Go `strings.TrimSpace`. -/
def trimSpace (s : Bytes) : Bytes :=
  (dropSpaces true 0 (trimLeftSpace s).reverse).reverse

/-! ## Errors, streams, requests -/

deriving instance DecidableEq for Except

/-- The Go error values that can flow out of `getKey` and `RoundTrip`. -/
inductive Error
  /-- `strconv.ParseBool` syntax error. -/
  | parseBoolSyntax
  /-- `http.ErrNotMultipart`. -/
  | notMultipart
  /-- `http.ErrMissingBoundary`. -/
  | missingBoundary
  /-- `http: MultipartReader called twice`. -/
  | multipartReaderCalledTwice
  /-- `http: multipart handled by ParseMultipartForm`. -/
  | multipartHandledByParseMultipartForm
  /-- `io.EOF`. -/
  | eof
  /-- `io.ErrUnexpectedEOF`. -/
  | unexpectedEOF
  /-- `multipart: boundary is empty`. -/
  | boundaryEmpty
  /-- `multipart: NextPart: ...` wrapping a read error. -/
  | nextPartRead
  /-- `multipart: expecting a new Part; got line ...`. -/
  | expectingNewPart
  /-- `multipart: unexpected line in Next(): ...`. -/
  | unexpectedLine
  /-- `textproto.ProtocolError` from a malformed MIME header block. -/
  | malformedMIMEHeader
  /-- Errors of `mime/quotedprintable`. -/
  | quotedPrintable
  /-- `http: missing form body`. -/
  | missingFormBody
  /-- An error produced by a collaborator (network, body stream). -/
  | external (code : Nat)
  /-- Not an error value but the run-time panic `invalid memory address or nil
  pointer dereference`: it ends `getKey` and unwinds through `RoundTrip`, so neither
  of them returns. -/
  | nilPointerDereference
  deriving DecidableEq, Repr

/-- An `io.ReadCloser` seen from its reader: the bytes it will deliver, and the
error that ends the delivery (`none` stands for a clean `io.EOF`). -/
structure Stream where
  data : Bytes
  err : Option Error
  deriving DecidableEq, Repr

/-- Go `io.NopCloser(&buf)` over a `bytes.Buffer` holding `b`. -/
def nopCloser (b : Bytes) : Stream := { data := b, err := none }

/-- Go `io.ReadAll`: everything the stream delivers, or its error. -/
def Stream.readAll (s : Stream) : Except Error Bytes :=
  match s.err with
  | none => .ok s.data
  | some e => .error e

/-- The three states of `Request.MultipartForm` that `MultipartReader` tells apart:
`nil`, the sentinel `multipartByReader`, and a form parsed by `ParseMultipartForm`. -/
inductive MultipartForm
  | unset
  | byReader
  | parsed
  deriving DecidableEq, Repr

/-- Go `http.Header` with canonical keys. -/
abbrev Header := List (Bytes × List Bytes)

/-- Go `Header.Get` for a key that is already canonical: the first value, or `""`. -/
def Header.Get (h : Header) (key : Bytes) : Bytes :=
  match h.lookup key with
  | some (v :: _) => v
  | _ => []

/-- The part of `*http.Request` that the caching transport touches.
`URL` is the text `req.URL.String()` returns. `Body` is `none` for the `nil` body
that `httputil.ReverseProxy` hands to its transport whenever the inbound request
has a content length of zero. -/
structure Request where
  Method : Bytes
  URL : Bytes
  Header : Header
  Body : Option Stream
  MultipartForm : MultipartForm
  deriving DecidableEq, Repr

/-- Go `io.ReadAll(req.Body)`, which dereferences a `nil` body. -/
def ReadAll (body : Option Stream) : Except Error Bytes :=
  match body with
  | none => .error .nilPointerDereference
  | some s => s.readAll

/-! ## `strconv.ParseBool` -/

/-- Go `strconv.ParseBool`. -/
def ParseBool (str : Bytes) : Except Error Bool :=
  if str ∈ [bytesOf "1", bytesOf "t", bytesOf "T", bytesOf "true", bytesOf "TRUE",
      bytesOf "True"] then .ok true
  else if str ∈ [bytesOf "0", bytesOf "f", bytesOf "F", bytesOf "false", bytesOf "FALSE",
      bytesOf "False"] then .ok false
  else .error .parseBoolSyntax

/-! ## `mime.ParseMediaType` and `Request.MultipartReader`

The model covers RFC 2045 parameters (`; name=token` and `; name="quoted string"`)
and the RFC 2231 parameters whose names contain `*`: `name*=charset'lang'value` and
the continuations `name*0`, `name*1*`, .., which `ParseMediaType` stitches into the
parameter `name`. Go maps are modelled as association lists with distinct keys. -/

/-- Go `mime.isTSpecial`: one of `()<>@,;:\"/[]?=`. -/
def isTSpecial (c : UInt8) : Bool :=
  c ∈ ([40, 41, 60, 62, 64, 44, 59, 58, 92, 34, 47, 91, 93, 63, 61] : List UInt8)

/-- Go `mime.isTokenChar`. -/
def isTokenChar (c : UInt8) : Bool := 0x20 < c && c < 0x7f && !isTSpecial c

/-- Go `mime.consumeToken`: the longest leading run of token characters and the rest. -/
def consumeToken (v : Bytes) : Bytes × Bytes := v.span isTokenChar

/-- The quoted-string loop of Go `mime.consumeValue`, after the opening quote.
`esc` records that the previous byte was a backslash whose treatment depends on the
current byte (an escape before a tspecial, a literal backslash otherwise).
`none` stands for the failure return `("", v)`. -/
def consumeQuoted (v : Bytes) (acc : Bytes) (esc : Bool) : Option (Bytes × Bytes) :=
  match v with
  | [] => none
  | r :: t =>
    if esc then
      if isTSpecial r then consumeQuoted t (acc ++ [r]) false
      else if r = 13 ∨ r = 10 then none
      else consumeQuoted t (acc ++ [92, r]) false
    else if r = 34 then some (acc, t)
    else if r = 92 then consumeQuoted t acc true
    else if r = 13 ∨ r = 10 then none
    else consumeQuoted t (acc ++ [r]) false

/-- Go `mime.consumeValue`. -/
def consumeValue (v : Bytes) : Bytes × Bytes :=
  match v with
  | [] => ([], [])
  | c :: t =>
    if c ≠ 34 then consumeToken v
    else
      match consumeQuoted t [] false with
      | some r => r
      | none => ([], v)

/-- Go `mime.consumeMediaParam`: `(param, value, rest)`; an empty `param` is failure. -/
def consumeMediaParam (v : Bytes) : Bytes × Bytes × Bytes :=
  match trimLeftSpace v with
  | [] => ([], [], v)
  | c :: rest0 =>
    if c ≠ 59 then ([], [], v)
    else
      let (param0, rest1) := consumeToken (trimLeftSpace rest0)
      -- a token is ASCII text
      let param := toLower param0
      if param = [] then ([], [], v)
      else
        match trimLeftSpace rest1 with
        | [] => ([], [], v)
        | e :: rest2 =>
          if e ≠ 61 then ([], [], v)
          else
            let rest3 := trimLeftSpace rest2
            let (value, rest4) := consumeValue rest3
            if value = [] ∧ rest4 = rest3 then ([], [], v)
            else (param, value, rest4)

/-- Go `mime.checkMediaTypeDisposition`: `true` when the media type is well formed. -/
def checkMediaTypeDisposition (s : Bytes) : Bool :=
  let (typ, rest) := consumeToken s
  if typ = [] then false
  else
    match rest with
    | [] => true
    | c :: rest1 =>
      if c ≠ 47 then false
      else
        let (subtype, rest2) := consumeToken rest1
        if subtype = [] then false
        else rest2 = []

/-- Go `m[k] = v` on a map kept as an association list. -/
def setEntry {α : Type} (m : List (Bytes × α)) (k : Bytes) (v : α) : List (Bytes × α) :=
  if (m.lookup k).isSome then m.map (fun kv => if kv.1 = k then (k, v) else kv)
  else m ++ [(k, v)]

/-- The parameter loop of Go `mime.ParseMediaType`: the plain parameters, and for
every base name the pieces written with a `*`; `none` stands for an error. -/
def parseMediaParams (fuel : Nat) (v : Bytes) (params : List (Bytes × Bytes))
    (continuation : List (Bytes × List (Bytes × Bytes))) :
    Option (List (Bytes × Bytes) × List (Bytes × List (Bytes × Bytes))) :=
  match fuel with
  | 0 => some (params, continuation)
  | fuel + 1 =>
    let v1 := trimLeftSpace v
    if v1 = [] then some (params, continuation)
    else
      let (key, value, rest) := consumeMediaParam v1
      if key = [] then
        if trimSpace rest = [59] then some (params, continuation) else none
      else if (42 : UInt8) ∈ key then
        -- baseName, _, ok := strings.Cut(key, "*"); pmap = continuation[baseName]
        let baseName := key.takeWhile (· ≠ 42)
        let pmap := (continuation.lookup baseName).getD []
        match pmap.lookup key with
        | some old =>
          if old ≠ value then none
          else parseMediaParams fuel rest params continuation
        | none =>
          parseMediaParams fuel rest params
            (setEntry continuation baseName (pmap ++ [(key, value)]))
      else
        match params.lookup key with
        | some old =>
          if old ≠ value then none
          else parseMediaParams fuel rest params continuation
        | none => parseMediaParams fuel rest (params ++ [(key, value)]) continuation

/-- Go `mime.ishex`. -/
def ishex (c : UInt8) : Bool :=
  (48 ≤ c && c ≤ 57) || (97 ≤ c && c ≤ 102) || (65 ≤ c && c ≤ 70)

/-- Go `mime.unhex`. -/
def unhex (c : UInt8) : UInt8 :=
  if 48 ≤ c ∧ c ≤ 57 then c - 48
  else if 97 ≤ c ∧ c ≤ 102 then c - 97 + 10
  else if 65 ≤ c ∧ c ≤ 70 then c - 65 + 10
  else 0

/-- Go `mime.percentHexUnescape`; `none` when a `%` is not followed by two hex
digits. `pending` holds the bytes of an escape that has been opened: nothing, the
`%`, or the `%` and its first digit. -/
def percentHexLoop (pending : Option (Option UInt8)) : Bytes → Option Bytes
  | [] => if pending = none then some [] else none
  | c :: t =>
    match pending with
    | none =>
      if c = 37 then percentHexLoop (some none) t
      else (percentHexLoop none t).map (c :: ·)
    | some none => if ishex c then percentHexLoop (some (some c)) t else none
    | some (some h) =>
      if ishex c then (percentHexLoop none t).map ((unhex h * 16 + unhex c) :: ·) else none

/-- Go `mime.percentHexUnescape`. -/
def percentHexUnescape (s : Bytes) : Option Bytes := percentHexLoop none s

/-- Go `mime.decode2231Enc`: the value of `charset'lang'percent-encoded`, for the
charsets `us-ascii` and `utf-8`. -/
def decode2231Enc (v : Bytes) : Option Bytes :=
  -- sv := strings.SplitN(v, "'", 3)
  match v.span (· != 39) with
  | (_, []) => none
  | (charset0, _ :: v1) =>
    match v1.span (· != 39) with
    | (_, []) => none
    | (_, _ :: encoded) =>
      let charset := stringsToLower charset0
      if charset = [] then none
      else if charset ≠ bytesOf "us-ascii" ∧ charset ≠ bytesOf "utf-8" then none
      else percentHexUnescape encoded

/-- The decimal digits of `n`, least significant first. -/
def decimalDigits (fuel n : Nat) : Bytes :=
  match fuel with
  | 0 => []
  | fuel + 1 => (48 + (n % 10).toUInt8) :: (if n / 10 = 0 then [] else decimalDigits fuel (n / 10))

/-- Go `fmt.Sprintf("%d", n)`. -/
def decimal (n : Nat) : Bytes := (decimalDigits (n + 1) n).reverse

/-- The number that decimal digits, least significant first, stand for. -/
def digitsValue : Bytes → Nat
  | [] => 0
  | d :: ds => (d.toNat - 48) + 10 * digitsValue ds

/-- The loop `for n := 0; ; n++` of Go `mime.ParseMediaType` that joins the pieces
`key*0`, `key*1*`, .. of one parameter, up to the first number for which neither
form is present: the joined value, and whether any piece was found. -/
def stitchPieces (fuel n : Nat) (key : Bytes) (pieceMap : List (Bytes × Bytes)) (buf : Bytes)
    (valid : Bool) : Bytes × Bool :=
  match fuel with
  | 0 => (buf, valid)
  | fuel + 1 =>
    let simplePart := key ++ [42] ++ decimal n
    match pieceMap.lookup simplePart with
    | some v => stitchPieces fuel (n + 1) key pieceMap (buf ++ v) true
    | none =>
      match pieceMap.lookup (simplePart ++ [42]) with
      | none => (buf, valid)
      | some v =>
        let decv :=
          if n = 0 then (decode2231Enc v).getD [] else (percentHexUnescape v).getD []
        stitchPieces fuel (n + 1) key pieceMap (buf ++ decv) true

/-- The stitching pass of Go `mime.ParseMediaType` for the pieces of one parameter:
`key*` alone decides, else the numbered pieces are joined. -/
def stitch (params : List (Bytes × Bytes)) (entry : Bytes × List (Bytes × Bytes)) :
    List (Bytes × Bytes) :=
  let (key, pieceMap) := entry
  match pieceMap.lookup (key ++ [42]) with
  | some v =>
    match decode2231Enc v with
    | some decv => setEntry params key decv
    | none => params
  | none =>
    let (buf, valid) := stitchPieces (pieceMap.length + 1) 0 key pieceMap [] false
    if valid then setEntry params key buf else params

/-- Go `mime.ParseMediaType`: the lower-cased media type and its parameters. -/
def ParseMediaType (v : Bytes) : Option (Bytes × List (Bytes × Bytes)) :=
  let base := v.takeWhile (· ≠ 59)
  let mediatype := trimSpace (stringsToLower base)
  if !checkMediaTypeDisposition mediatype then none
  else
    let rest := v.drop base.length
    match parseMediaParams (rest.length + 1) rest [] [] with
    | none => none
    | some (params, continuation) => some (mediatype, continuation.foldl stitch params)

/-- Go `Request.multipartReader(true)` up to the construction of the reader: the
boundary the multipart reader will use. -/
def multipartBoundary (h : Header) : Except Error Bytes :=
  let v := Header.Get h (bytesOf "Content-Type")
  if v = [] then .error .notMultipart
  else
    match ParseMediaType v with
    | none => .error .notMultipart
    | some (d, params) =>
      if ¬ (d = bytesOf "multipart/form-data" ∨ d = bytesOf "multipart/mixed") then
        .error .notMultipart
      else
        match params.lookup (bytesOf "boundary") with
        | none => .error .missingBoundary
        | some boundary => .ok boundary

/-! ## `net/textproto`: the MIME header block of a part

The reader is modelled over the bytes not yet consumed. The limits a multipart
reader puts on a header block (10000 lines, 10 MiB) are not modelled; the parts the
theorems speak about stay below them. -/

/-- Go `textproto.trim`: strip leading and trailing spaces and tabs. -/
def trimLWS (s : Bytes) : Bytes :=
  let isLWS := fun (c : UInt8) => c = 32 || c = 9
  ((s.dropWhile isLWS).reverse.dropWhile isLWS).reverse

/-- Go `textproto.Reader.readLineSlice` (`bufio.Reader.ReadLine`): the next line
without its line end, and what follows; `none` is `io.EOF` on exhausted input. -/
def readLineSlice (buf : Bytes) : Option (Bytes × Bytes) :=
  match buf with
  | [] => none
  | _ =>
    match buf.span (· != 10) with
    | (l, []) => some (l, [])
    | (l, _ :: rest) => some (if l.getLast? = some 13 then l.dropLast else l, rest)

/-- The continuation loop of Go `textproto.Reader.readContinuedLineSlice`:
while the next line starts with a space or tab, fold it into the current one. -/
def readContinuation (fuel : Nat) (buf acc : Bytes) : Bytes × Bytes :=
  match fuel with
  | 0 => (acc, buf)
  | fuel + 1 =>
    let skipped := buf.dropWhile (fun c => c = 32 || c = 9)
    if skipped.length = buf.length then (acc, buf)
    else
      match readLineSlice skipped with
      | none => (acc ++ [32], skipped)
      | some (line, rest) => readContinuation fuel rest (acc ++ [32] ++ trimLWS line)

/-- Go `textproto.Reader.readContinuedLineSlice` with `mustHaveFieldNameColon`. -/
def readContinuedLineSlice (buf : Bytes) : Except Error (Bytes × Bytes) :=
  match readLineSlice buf with
  | none => .error .eof
  | some (line, rest) =>
    if line = [] then .ok ([], rest)
    else if (58 : UInt8) ∉ line then .error .malformedMIMEHeader
    else .ok (readContinuation (rest.length + 1) rest (trimLWS line))

/-- Go `textproto.validHeaderFieldByte`: an RFC 7230 token byte. -/
def validHeaderFieldByte (c : UInt8) : Bool :=
  (48 ≤ c && c ≤ 57) || (65 ≤ c && c ≤ 90) || (97 ≤ c && c ≤ 122) ||
    c ∈ ([33, 35, 36, 37, 38, 39, 42, 43, 45, 46, 94, 95, 96, 124, 126] : List UInt8)

/-- Go `textproto.validHeaderValueByte`: anything but a control byte other than tab. -/
def validHeaderValueByte (c : UInt8) : Bool := (32 ≤ c && c ≠ 127) || c = 9

/-- The letter-case pass of Go `textproto.canonicalMIMEHeaderKey`. -/
def canonicalCase (a : Bytes) (upper : Bool) : Bytes :=
  match a with
  | [] => []
  | c :: t =>
    let c1 := if upper ∧ 97 ≤ c ∧ c ≤ 122 then c - 32
      else if ¬ upper ∧ 65 ≤ c ∧ c ≤ 90 then c + 32 else c
    c1 :: canonicalCase t (c1 = 45)

/-- Go `textproto.canonicalMIMEHeaderKey`; `none` when the key holds an invalid byte. -/
def canonicalMIMEHeaderKey (a : Bytes) : Option Bytes :=
  if a.all (fun c => validHeaderFieldByte c || c = 32) then
    if (32 : UInt8) ∈ a then some a else some (canonicalCase a true)
  else none

/-- The main loop of Go `textproto.readMIMEHeader`. -/
def readMIMEHeaderLoop (fuel : Nat) (buf : Bytes) (m : List (Bytes × Bytes)) :
    Except Error (List (Bytes × Bytes) × Bytes) :=
  match fuel with
  | 0 => .error .malformedMIMEHeader
  | fuel + 1 =>
    match readContinuedLineSlice buf with
    | .error e => .error e
    | .ok (kv, rest) =>
      if kv = [] then .ok (m, rest)
      else
        match kv.span (· != 58) with
        | (_, []) => .error .malformedMIMEHeader
        | (k, _ :: v) =>
          match canonicalMIMEHeaderKey k with
          | none => .error .malformedMIMEHeader
          | some key =>
            if ¬ v.all validHeaderValueByte then .error .malformedMIMEHeader
            else if key = [] then readMIMEHeaderLoop fuel rest m
            else
              readMIMEHeaderLoop fuel rest (m ++ [(key, v.dropWhile (fun c => c = 32 || c = 9))])

/-- Go `textproto.readMIMEHeader`: the header block up to and including its blank
line, and the bytes that follow it. -/
def readMIMEHeader (buf : Bytes) : Except Error (List (Bytes × Bytes) × Bytes) :=
  match buf with
  | c :: _ =>
    if c = 32 ∨ c = 9 then .error .malformedMIMEHeader
    else readMIMEHeaderLoop (buf.length + 1) buf []
  | [] => readMIMEHeaderLoop (buf.length + 1) buf []

/-! ## `mime/quotedprintable`: transparent decoding of a part -/

/-- Go `quotedprintable.fromHex`. -/
def fromHex (b : UInt8) : Option UInt8 :=
  if 48 ≤ b ∧ b ≤ 57 then some (b - 48)
  else if 65 ≤ b ∧ b ≤ 70 then some (b - 65 + 10)
  else if 97 ≤ b ∧ b ≤ 102 then some (b - 97 + 10)
  else none

/-- The byte loop of Go `quotedprintable.Reader.Read` over one prepared line. -/
def qpBytes (fuel : Nat) (line acc : Bytes) : Except Error Bytes :=
  match fuel with
  | 0 => .ok acc
  | fuel + 1 =>
    match line with
    | [] => .ok acc
    | b :: t =>
      if b = 61 then
        let hex : Option UInt8 :=
          match t with
          | h :: l :: _ =>
            match fromHex h, fromHex l with
            | some x, some y => some (x * 16 + y)
            | _, _ => none
          | _ => none
        match hex with
        | some x => qpBytes fuel (t.drop 2) (acc ++ [x])
        | none =>
          match t with
          | c :: _ =>
            if c ≠ 13 ∧ c ≠ 10 then qpBytes fuel t (acc ++ [61])
            else .error .quotedPrintable
          | [] => .error .quotedPrintable
      else if b = 9 ∨ b = 13 ∨ b = 10 then qpBytes fuel t (acc ++ [b])
      else if 128 ≤ b then qpBytes fuel t (acc ++ [b])
      else if b < 32 ∨ 126 < b then .error .quotedPrintable
      else qpBytes fuel t (acc ++ [b])

/-- The line preparation of Go `quotedprintable.Reader.Read`: trailing white space
is dropped, a soft line break `=` is removed, a hard line break is kept.
`rerr` is the error that came with the line (`none` when it ended in a line feed). -/
def qpLine (wholeLine : Bytes) (rerr : Option Error) : Bytes × Option Error :=
  let isDiscard := fun (c : UInt8) => c = 10 || c = 13 || c = 32 || c = 9
  let hasLF := wholeLine.getLast? = some 10
  let hasCR := [13, 10].isSuffixOf wholeLine
  let line := (wholeLine.reverse.dropWhile isDiscard).reverse
  if line.getLast? = some 61 then
    let rightStripped := wholeLine.drop line.length
    let line1 := line.dropLast
    if ¬ hasPrefix rightStripped [10] ∧ ¬ hasPrefix rightStripped [13, 10] ∧
        ¬ (rightStripped = [] ∧ line1 ≠ [] ∧ rerr = some .eof) then
      (line1, some .quotedPrintable)
    else (line1, rerr)
  else if hasLF then
    if hasCR then (line ++ [13, 10], rerr) else (line ++ [10], rerr)
  else (line, rerr)

/-- Go `io.ReadAll` over a `quotedprintable.Reader` whose source delivers `inp` and
then ends with `srcErr` (`none` for a clean end). -/
def qpDecode (fuel : Nat) (inp : Bytes) (srcErr : Option Error) (acc : Bytes) :
    Except Error Bytes :=
  match fuel with
  | 0 => .ok acc
  | fuel + 1 =>
    let (whole, rest, rerr) : Bytes × Bytes × Option Error :=
      match inp.span (· != 10) with
      | (l, []) => (l, [], some (srcErr.getD .eof))
      | (l, c :: rest) => (l ++ [c], rest, none)
    let (line, rerr1) := qpLine whole rerr
    match qpBytes (line.length + 1) line acc with
    | .error e => .error e
    | .ok acc1 =>
      match rerr1 with
      | some .eof => .ok acc1
      | some e => .error e
      | none => qpDecode fuel rest srcErr acc1

/-! ## `mime/multipart.Reader`

The `bufio.Reader` between the multipart reader and the body is idealised: the
whole body is buffered, so every scan sees all remaining bytes together with the
end of input. The 4096-byte peek buffer is not modelled: a delimiter line has to
fit into it, which a boundary of at most 70 bytes guarantees. -/

/-- Go `multipart.Reader`: `buf` holds the bytes not yet consumed. -/
structure Reader where
  buf : Bytes
  nl : Bytes
  nlDashBoundary : Bytes
  dashBoundaryDash : Bytes
  dashBoundary : Bytes
  partsRead : Nat
  deriving DecidableEq, Repr

/-- Go `multipart.NewReader`. -/
def NewReader (body boundary : Bytes) : Reader :=
  { buf := body
    nl := [13, 10]
    nlDashBoundary := [13, 10, 45, 45] ++ boundary
    dashBoundaryDash := [45, 45] ++ boundary ++ [45, 45]
    dashBoundary := [45, 45] ++ boundary
    partsRead := 0 }

/-- Go `multipart.Part`: its MIME header and whether its body is decoded from
quoted-printable on the fly. -/
structure Part where
  Header : List (Bytes × Bytes)
  quotedPrintable : Bool
  deriving DecidableEq, Repr

/-- Go `multipart.skipLWSPChar`. -/
def skipLWSPChar (b : Bytes) : Bytes := b.dropWhile (fun c => c = 32 || c = 9)

/-- Go `multipart.Reader.isFinalBoundary`. -/
def Reader.isFinalBoundary (r : Reader) (line : Bytes) : Bool :=
  if ¬ hasPrefix line r.dashBoundaryDash then false
  else
    let rest := skipLWSPChar (line.drop r.dashBoundaryDash.length)
    rest = [] || rest = r.nl

/-- Go `multipart.Reader.isBoundaryDelimiterLine`; on the first part a bare line
feed switches the reader to `\n` line ends. -/
def Reader.isBoundaryDelimiterLine (r : Reader) (line : Bytes) : Bool × Reader :=
  if ¬ hasPrefix line r.dashBoundary then (false, r)
  else
    let rest := skipLWSPChar (line.drop r.dashBoundary.length)
    let r1 : Reader :=
      if r.partsRead = 0 ∧ rest = [10] then
        { r with nl := r.nl.drop 1, nlDashBoundary := r.nlDashBoundary.drop 1 }
      else r
    (rest = r1.nl, r1)

/-- Go `multipart.newPart` for `NextPart`: read the header block; a part declaring
`Content-Transfer-Encoding: quoted-printable` hides that header and decodes. -/
def newPart (r : Reader) : Except Error (Part × Reader) :=
  match readMIMEHeader r.buf with
  | .error e => .error e
  | .ok (hdr, rest) =>
    let cte := bytesOf "Content-Transfer-Encoding"
    let qp := toLower ((hdr.lookup cte).getD []) = bytesOf "quoted-printable"
    .ok ({ Header := if qp then hdr.filter (fun kv => kv.1 ≠ cte) else hdr
           quotedPrintable := qp },
         { r with buf := rest })

/-- The line loop of Go `multipart.Reader.nextPart`, entered once the current part
has been read to its end. -/
def Reader.nextPartLoop (fuel : Nat) (r : Reader) (expectNewPart : Bool) :
    Except Error (Part × Reader) :=
  match fuel with
  | 0 => .error .nextPartRead
  | fuel + 1 =>
    let (line, rest, atEOF) : Bytes × Bytes × Bool :=
      match r.buf.span (· != 10) with
      | (l, []) => (l, [], true)
      | (l, c :: rest) => (l ++ [c], rest, false)
    if atEOF ∧ r.isFinalBoundary line then .error .eof
    else if atEOF then .error .nextPartRead
    else
      let (isDelim, r1) := r.isBoundaryDelimiterLine line
      if isDelim then
        newPart { r1 with buf := rest, partsRead := r1.partsRead + 1 }
      else if r1.isFinalBoundary line then .error .eof
      else if expectNewPart then .error .expectingNewPart
      else if r1.partsRead = 0 then Reader.nextPartLoop fuel { r1 with buf := rest } expectNewPart
      else if line = r1.nl then Reader.nextPartLoop fuel { r1 with buf := rest } true
      else .error .unexpectedLine

/-- Go `multipart.Reader.NextPart`. -/
def Reader.NextPart (r : Reader) : Except Error (Part × Reader) :=
  if r.dashBoundary = [45, 45] then .error .boundaryEmpty
  else r.nextPartLoop (r.buf.length + 1) false

/-- Go `multipart.matchAfterPrefix`: `1` the prefix is a boundary, `-1` it is not,
`0` more input is needed. -/
def matchAfterPrefix (buf pre : Bytes) (readErr : Option Error) : Int :=
  if buf.length = pre.length then
    if readErr.isSome then 1 else 0
  else
    match buf.drop pre.length with
    | [] => 0
    | c :: t =>
      if c = 32 ∨ c = 9 ∨ c = 13 ∨ c = 10 then 1
      else if c = 45 then
        match t with
        | [] => if readErr.isSome then -1 else 0
        | d :: _ => if d = 45 then 1 else -1
      else -1

/-- Go `multipart.scanUntilBoundary`: how many leading bytes of `buf` are part
data, and the error to report after them (`some .eof` when the part ends there). -/
def scanUntilBoundary (buf dashBoundary nlDashBoundary : Bytes) (total : Nat)
    (readErr : Option Error) : Nat × Option Error :=
  let atStart : Option (Nat × Option Error) :=
    if total = 0 then
      if hasPrefix buf dashBoundary then
        let m := matchAfterPrefix buf dashBoundary readErr
        if m = -1 then some (dashBoundary.length, none)
        else if m = 0 then some (0, none)
        else some (0, some .eof)
      else if hasPrefix dashBoundary buf then some (0, readErr)
      else none
    else none
  match atStart with
  | some res => res
  | none =>
    match index buf nlDashBoundary with
    | some i =>
      let m := matchAfterPrefix (buf.drop i) nlDashBoundary readErr
      if m = -1 then (i + nlDashBoundary.length, none)
      else if m = 0 then (i, none)
      else (i, some .eof)
    | none =>
      if hasPrefix nlDashBoundary buf then (0, readErr)
      else
        match lastIndexByte buf (nlDashBoundary.headD 0) with
        | some i =>
          if hasPrefix nlDashBoundary (buf.drop i) then (i, none)
          else (buf.length, readErr)
        | none => (buf.length, readErr)

/-- Go `io.ReadAll` over the raw `partReader`: the part data, the bytes left for the
reader, and the error that ended the part (`none` for a clean end at a boundary). -/
def readPartRaw (fuel : Nat) (r : Reader) (buf : Bytes) (total : Nat) (acc : Bytes) :
    Bytes × Bytes × Option Error :=
  match fuel with
  | 0 => (acc, buf, some .unexpectedEOF)
  | fuel + 1 =>
    match scanUntilBoundary buf r.dashBoundary r.nlDashBoundary total (some .unexpectedEOF) with
    | (n, none) => readPartRaw fuel r (buf.drop n) (total + n) (acc ++ buf.take n)
    | (n, some .eof) => (acc ++ buf.take n, buf.drop n, none)
    | (n, some e) => (acc ++ buf.take n, buf.drop n, some e)

/-- Go `io.ReadAll(part)`: the payload of the current part (decoded when the part is
quoted-printable) and the reader positioned after it. -/
def Part.readAll (p : Part) (r : Reader) : Except Error Bytes × Reader :=
  let (data, rest, err) := readPartRaw (r.buf.length + 1) r r.buf 0 []
  let r1 : Reader := { r with buf := rest }
  if p.quotedPrintable then (qpDecode (data.length + 1) data err [], r1)
  else
    match err with
    | none => (.ok data, r1)
    | some e => (.error e, r1)

/-! ## `getKey` -/

/-- Go `Request.MultipartReader`: refuses a request whose form was already taken,
marks the request as read by a multipart reader, and builds the reader over the
current body. -/
def Request.MultipartReader (req : Request) : Except Error Reader × Request :=
  match req.MultipartForm with
  | .byReader => (.error .multipartReaderCalledTwice, req)
  | .parsed => (.error .multipartHandledByParseMultipartForm, req)
  | .unset =>
    let req1 := { req with MultipartForm := .byReader }
    if Header.Get req.Header (bytesOf "Content-Type") = [] then (.error .notMultipart, req1)
    else
      match req.Body with
      | none => (.error .missingFormBody, req1)
      | some body =>
        match multipartBoundary req.Header with
        | .error e => (.error e, req1)
        | .ok boundary => (.ok (NewReader body.data boundary), req1)

/-- The `for err == nil` loop of `getKey` (proxy.go:150-162): every part the reader
yields is read to its end and appended to the key; the loop stops at the first
`NextPart` error, whatever it is, and only a failed part read is reported. -/
def partsLoop (fuel : Nat) (mpr : Reader) (key : Bytes) : Except Error Bytes :=
  match fuel with
  | 0 => .ok key
  | fuel + 1 =>
    match mpr.NextPart with
    | .error _ => .ok key
    | .ok (part, mpr1) =>
      match part.readAll mpr1 with
      | (.error pErr, _) => .error pErr
      | (.ok partBytes, mpr2) => partsLoop fuel mpr2 (key ++ partBytes)

/-- Go `getKey` (proxy.go:124-170): the fingerprint or the error, and the request as
`getKey` leaves it.

A `nil` body makes the copy at line 129 read through a nil interface: `getKey`
panics before it has touched the request.

When a part cannot be read to its end, `req.Body` is left on the buffer the
multipart reader has drawn from. The model leaves it empty, which is what remains
when the part ran into the end of the input (the reader has then drawn the whole
buffer); after a quoted-printable decoding error in a body of more than 4096 bytes
the real buffer still holds the bytes the reader had not yet drawn. -/
def getKey (req : Request) : Except Error Bytes × Request :=
  match req.Body with
  -- 126-129: io.Copy through io.TeeReader(req.Body, ..) with req.Body == nil
  | none => (.error .nilPointerDereference, req)
  | some stream =>
    -- 125-130: io.Copy(&body, io.TeeReader(req.Body, &clonedBody)); req.Body.Close()
    let clonedBody := stream.data
    let body := stream.data
    match stream.err with
    -- 131-133: the body could not be drained
    | some err => (.error err, { req with Body := some { data := [], err := some err } })
    | none =>
      -- 135: req.Body = io.NopCloser(&body)
      let req1 := { req with Body := some (nopCloser body) }
      -- 137-138: key := []byte(req.URL.String())
      let key := req1.URL
      -- 140-141: strings.HasPrefix(ct, "multipart/")
      let ct := Header.Get req1.Header (bytesOf "Content-Type")
      if hasPrefix ct (bytesOf "multipart/") then
        -- 145-148: mpr, err := req.MultipartReader()
        match req1.MultipartReader with
        | (.error err, req2) => (.error err, req2)
        | (.ok mpr, req2) =>
          -- 150-162: the loop over the parts
          match partsLoop (body.length + 1) mpr key with
          -- 153-155: return nil, pErr
          | .error pErr => (.error pErr, { req2 with Body := some (nopCloser []) })
          -- 163-165: req.Body = io.NopCloser(&clonedBody); return key, nil
          | .ok key1 => (.ok key1, { req2 with Body := some (nopCloser clonedBody) })
      -- 168-169: key = append(key, clonedBody.Bytes()...)
      else (.ok (key ++ clonedBody), req1)

/-! ## The cache, the upstream and `CachingTransport.RoundTrip` -/

/-- The part of `*http.Response` that the claims speak about. -/
structure Response where
  Status : Bytes
  Header : Header
  Body : Stream
  deriving DecidableEq, Repr

/-- The `ristretto` cache as the transport sees it: the entries a `Get` can see,
the hit and miss counters of its metrics, and the buffer of the `Set`s that the
cache has taken but its background worker has not applied yet (key, value, and the
keys the entry will evict). Keys are compared byte for byte. -/
structure Cache where
  store : List (Bytes × Bytes)
  hits : Nat
  misses : Nat
  setBuf : List (Bytes × Bytes × List Bytes) := []
  deriving DecidableEq, Repr

/-- The decisions of the cache about an offered entry: `none` drops it on arrival
(the buffer is full), `some victims` takes it into the buffer; when the entry is
applied it evicts the keys in `victims`, and an entry that names its own key there
is turned away by the admission policy. -/
abbrev Policy := Cache → Bytes → Bytes → Nat → Option (List Bytes)

/-- Go `cache.Get(key)`: looks at the stored entries only. -/
def Cache.Get (c : Cache) (key : Bytes) : Option Bytes × Cache :=
  match c.store.lookup key with
  | some v => (some v, { c with hits := c.hits + 1 })
  | none => (none, { c with misses := c.misses + 1 })

/-- Go `cache.Set(key, value, cost)`: a key that is already stored gets its new
value at once; the entry is then handed to the buffer, and `Set` reports whether
the buffer took it (or the stored value was updated). The entry of a new key
becomes visible to `Get` only when the buffer is applied. -/
def Cache.Set (c : Cache) (policy : Policy) (key value : Bytes) (cost : Nat) : Bool × Cache :=
  let updated := (c.store.lookup key).isSome
  let c1 : Cache :=
    { c with store := c.store.map (fun kv => if kv.1 = key then (key, value) else kv) }
  match policy c key value cost with
  | none => (updated, c1)
  | some victims => (true, { c1 with setBuf := c1.setBuf ++ [(key, value, victims)] })

/-- One buffered entry reaches the admission policy: an admitted entry is stored and
its victims are evicted, a rejected one leaves the store as it is. -/
def Cache.applyItem (store : List (Bytes × Bytes)) (item : Bytes × Bytes × List Bytes) :
    List (Bytes × Bytes) :=
  if item.1 ∈ item.2.2 then store
  else
    (item.1, item.2.1) ::
      store.filter (fun kv => decide (kv.1 ≠ item.1) && decide (kv.1 ∉ item.2.2))

/-- The background worker of the cache (`processItems`) drains the buffer, oldest
entry first. `RoundTrip` never waits for it: whether it has run between two calls is
up to the scheduler. -/
def Cache.processItems (c : Cache) : Cache :=
  { c with store := c.setBuf.foldl Cache.applyItem c.store, setBuf := [] }

/-- The collaborators of the transport: the real upstream round trip
(`http.DefaultTransport.RoundTrip`), the wire codec (`Response.Write` into a buffer
and `http.ReadResponse`), and the admission policy of the cache. -/
structure Env where
  transport : Request → Except Error Response
  write : Response → Except Error Bytes
  readResponse : Bytes → Request → Except Error Response
  policy : Policy

/-- The same collaborators with another admission policy. -/
def Env.withPolicy (env : Env) (policy : Policy) : Env :=
  { transport := env.transport, write := env.write, readResponse := env.readResponse
    policy := policy }

/-- What one call of `RoundTrip` does: the result handed to the caller, the request
and the cache as they are left, and the trace of upstream calls, cache lookups,
cache offers and log lines. -/
structure Outcome where
  resp : Except Error Response
  req : Request
  cache : Cache
  upstream : List Request
  gets : List Bytes
  sets : List (Bytes × Bytes × Nat)
  log : List Bytes
  deriving DecidableEq, Repr

/-- Go `CachingTransport.RoundTrip` (proxy.go:87-122). The cache behind the pointer
`t.cache` is passed in, and returned in the outcome as the call leaves it. -/
def CachingTransport.RoundTrip (env : Env) (cache : Cache) (req : Request) : Outcome :=
  -- 88-91: the opt-in header
  let useCache := Header.Get req.Header (bytesOf "X-Cache")
  match ParseBool useCache with
  | .error _ | .ok false =>
    { resp := env.transport req, req := req, cache := cache
      upstream := [req], gets := [], sets := [], log := [] }
  | .ok true =>
    -- 93-96: key, err := getKey(req)
    match getKey req with
    | (.error err, req1) =>
      { resp := .error err, req := req1, cache := cache
        upstream := [], gets := [], sets := [], log := [] }
    | (.ok key, req1) =>
      -- 98-103: serial, found := t.cache.Get(key)
      match cache.Get key with
      | (some asBytes, cache1) =>
        { resp := env.readResponse asBytes req1, req := req1, cache := cache1
          upstream := [], gets := [key], sets := [], log := [] }
      | (none, cache1) =>
        -- 105-108: resp, err := http.DefaultTransport.RoundTrip(req)
        match env.transport req1 with
        | .error err =>
          { resp := .error err, req := req1, cache := cache1
            upstream := [req1], gets := [key], sets := [], log := [] }
        | .ok resp =>
          -- 110-113: resp.Write(&serializedResp)
          match env.write resp with
          | .error err =>
            { resp := .error err, req := req1, cache := cache1
              upstream := [req1], gets := [key], sets := [], log := [] }
          | .ok bytes =>
            -- 115-121: t.cache.Set(key, bytes, int64(len(bytes))); http.ReadResponse
            match cache1.Set env.policy key bytes bytes.length with
            | (ok, cache2) =>
              { resp := env.readResponse bytes req1, req := req1, cache := cache2
                upstream := [req1], gets := [key], sets := [(key, bytes, bytes.length)]
                log := if ok then [] else [bytesOf "Set cache failed: " ++ req1.URL] }

/-! ## A concrete wire codec and concrete collaborators

`RoundTrip` is stated over any codec. The codec below writes a close-delimited
HTTP/1.1 message (status line, header lines, blank line, body up to the end of the
bytes); it is the instance the concrete evaluations run on. Like
`http.ReadResponse`, its reader leaves the body empty when the request it answers
is a `HEAD`. -/

/-- The header lines of a message, one `Key: value` line per value. -/
def headerLines (h : Header) : Bytes :=
  (h.map (fun kv => (kv.2.map (fun v => kv.1 ++ [58, 32] ++ v ++ [13, 10])).flatten)).flatten

/-- Serialise a response; fails with the body's error when the body cannot be read
to its end. -/
def wireWrite (resp : Response) : Except Error Bytes :=
  match resp.Body.err with
  | some e => .error e
  | none =>
    .ok (bytesOf "HTTP/1.1 " ++ resp.Status ++ [13, 10] ++ headerLines resp.Header ++ [13, 10] ++
      resp.Body.data)

/-- Go `MIMEHeader.Add` over the header lines in the order they were read: the
values of one key are collected under that key. -/
def collectHeader (lines : List (Bytes × Bytes)) : Header :=
  lines.foldl (fun h kv => setEntry h kv.1 ((h.lookup kv.1).getD [] ++ [kv.2])) []

/-- Parse what `wireWrite` produces, as the answer to the request `req`. -/
def wireRead (b : Bytes) (req : Request) : Except Error Response :=
  match readLineSlice b with
  | none => .error .unexpectedEOF
  | some (statusLine, rest) =>
    if ¬ hasPrefix statusLine (bytesOf "HTTP/1.1 ") then .error .malformedMIMEHeader
    else
      match readMIMEHeader rest with
      | .error e => .error e
      | .ok (hdr, body) =>
        .ok { Status := statusLine.drop 9
              Header := collectHeader hdr
              Body := nopCloser (if req.Method = bytesOf "HEAD" then [] else body) }

/-- The policy that admits every entry and evicts nothing. -/
def admitAll : Policy := fun _ _ _ _ => some []

/-- The policy that rejects every entry. -/
def rejectAll : Policy := fun _ _ _ _ => none

/-- The empty cache. -/
def Cache.empty : Cache := { store := [], hits := 0, misses := 0 }

/-! ## Well-formed multipart streams

The sender's side of RFC 2046, as `mime/multipart.Writer` lays a message out: each
part is a delimiter line, its header lines, a blank line and its payload; the
stream ends with the closing delimiter line. -/

/-- A part as the sender writes it: header lines and payload bytes. -/
structure RawPart where
  header : List (Bytes × Bytes)
  payload : Bytes
  deriving DecidableEq, Repr

/-- The header lines of a part, one `Key: value` line each. -/
def encodeHeaderLines (h : List (Bytes × Bytes)) : Bytes :=
  (h.map (fun kv => kv.1 ++ [58, 32] ++ kv.2 ++ [13, 10])).flatten

/-- One part on the wire, from its delimiter line to the line break that ends its
payload. -/
def encodePart (boundary : Bytes) (p : RawPart) : Bytes :=
  [45, 45] ++ boundary ++ [13, 10] ++ encodeHeaderLines p.header ++ [13, 10] ++ p.payload ++
    [13, 10]

/-- The multipart stream with the given boundary and parts. -/
def encodeMultipart (boundary : Bytes) (parts : List RawPart) : Bytes :=
  (parts.map (encodePart boundary)).flatten ++ ([45, 45] ++ boundary ++ [45, 45, 13, 10])

/-- A header line the MIME header reader accepts: a non-empty token as key and a
value without control bytes. -/
def validHeaderLine (kv : Bytes × Bytes) : Bool :=
  decide (kv.1 ≠ []) && kv.1.all validHeaderFieldByte && kv.2.all validHeaderValueByte

/-- The value the MIME header reader stores for a header written as `Key: value`. -/
def headerValueAsRead (v : Bytes) : Bytes :=
  (((32 :: v).reverse.dropWhile (fun c => c = 32 || c = 9)).reverse).dropWhile
    (fun c => c = 32 || c = 9)

/-- The header of a part as the MIME header reader stores it. -/
def headerAsRead (h : List (Bytes × Bytes)) : List (Bytes × Bytes) :=
  h.map (fun kv => (canonicalCase kv.1 true, headerValueAsRead kv.2))

/-- The part asks for quoted-printable decoding. -/
def RawPart.declaresQuotedPrintable (p : RawPart) : Bool :=
  toLower (((headerAsRead p.header).lookup (bytesOf "Content-Transfer-Encoding")).getD []) =
    bytesOf "quoted-printable"

/-- A part that survives framing with `boundary`: its header lines are valid, it
does not ask for quoted-printable decoding, its payload does not contain the
delimiter `--boundary`, and its header block stays within the limits of the reader
(10000 lines; 10 MiB, every line charged with 200 bytes on top of its own and the
block with 400). -/
def RawPart.wellFormed (boundary : Bytes) (p : RawPart) : Prop :=
  p.header.all validHeaderLine = true ∧ p.declaresQuotedPrintable = false ∧
    index p.payload ([45, 45] ++ boundary) = none ∧
    p.header.length ≤ 10000 ∧
    (encodeHeaderLines p.header).length + 200 * p.header.length + 400 ≤ 10485760

instance (boundary : Bytes) (p : RawPart) : Decidable (p.wellFormed boundary) := by
  unfold RawPart.wellFormed
  infer_instance

/-- A boundary as RFC 2046 allows it on a delimiter line: between 1 and 70 bytes,
none of them a carriage return or a line feed. -/
def validBoundary (boundary : Bytes) : Prop :=
  boundary ≠ [] ∧ (13 : UInt8) ∉ boundary ∧ (10 : UInt8) ∉ boundary ∧ boundary.length ≤ 70

instance (boundary : Bytes) : Decidable (validBoundary boundary) := by
  unfold validBoundary
  infer_instance

/-! ## Responses that the wire codec hands back as they were written -/

/-- The header lines of a message as a flat list, one line per value. -/
def Header.lines (h : Header) : List (Bytes × Bytes) :=
  (h.map (fun kv => kv.2.map (fun v => (kv.1, v)))).flatten

/-- A header entry that the wire codec hands back as it was written: a canonical key
with at least one value, every value a valid header value without white space at
either end. -/
def validWireHeader (kv : Bytes × List Bytes) : Bool :=
  decide (kv.2 ≠ []) && decide (canonicalCase kv.1 true = kv.1) &&
    kv.2.all (fun v => validHeaderLine (kv.1, v) && decide (headerValueAsRead v = v))

/-- A response that the wire codec hands back as it was written: a status line
without line feed, distinct header keys, valid header entries. -/
def Response.onWire (resp : Response) : Prop :=
  (10 : UInt8) ∉ resp.Status ∧ (resp.Header.map Prod.fst).Nodup ∧
    resp.Header.all validWireHeader = true

instance (resp : Response) : Decidable resp.onWire := by
  unfold Response.onWire
  infer_instance

/-! ## Predicates on the state of the readers, used to state the multipart lemmas -/

/-- No space or tab at the head of the bytes that follow a header line. -/
def startsPlain (buf : Bytes) : Prop :=
  ∀ c ∈ buf.head?, c ≠ 32 ∧ c ≠ 9

/-- The reader's delimiters are the ones `NewReader` derives from `boundary`. -/
def Reader.framed (r : Reader) (boundary : Bytes) : Prop :=
  r.nl = [13, 10] ∧ r.dashBoundary = 45 :: 45 :: boundary ∧
    r.nlDashBoundary = 13 :: 10 :: 45 :: 45 :: boundary ∧
    r.dashBoundaryDash = 45 :: 45 :: boundary ++ [45, 45]

/-- What follows a delimiter `--boundary` on the wire: a line end, or the two dashes
of the closing delimiter. -/
def afterDelimiter (t : Bytes) : Prop :=
  (∃ t1, t = 13 :: t1) ∨ (∃ t1, t = 45 :: 45 :: t1)

/-- The reader stands in front of the parts `ps`: at the first delimiter line, or at
the line break that ended the previous payload. -/
def Reader.atParts (r : Reader) (b : Bytes) (ps : List RawPart) : Prop :=
  r.framed b ∧ (r.buf = encodeMultipart b ps ∨ r.buf = 13 :: 10 :: encodeMultipart b ps)

/-- The delimiters of a reader made by `NewReader`, before or after the switch to
bare line feeds that the first delimiter line may trigger. -/
def Reader.wellDelimited (r : Reader) : Prop :=
  ∃ b, r.dashBoundary = 45 :: 45 :: b ∧
    ((r.nl = [13, 10] ∧ r.nlDashBoundary = 13 :: 10 :: 45 :: 45 :: b) ∨
      (r.nl = [10] ∧ r.nlDashBoundary = 10 :: 45 :: 45 :: b ∧ 1 ≤ r.partsRead))

/-! ## Concrete requests and responses used by the evaluations -/

/-- A `POST /upload` with `X-Cache` set to `xcache`, `Content-Type` set to `ct`, and
a fully readable body. -/
def mkRequest (xcache ct body : Bytes) : Request :=
  { Method := bytesOf "POST"
    URL := bytesOf "/upload"
    Header := [(bytesOf "Content-Type", [ct]), (bytesOf "X-Cache", [xcache])]
    Body := some (nopCloser body)
    MultipartForm := .unset }

/-- The two parts `a` (with one header line) and `bb` (with none). -/
def twoParts : List RawPart :=
  [{ header := [(bytesOf "Content-Disposition", bytesOf "form-data; name=\"f\"")]
     payload := bytesOf "a" },
   { header := [], payload := bytesOf "bb" }]

/-- A multipart body with boundary `x` and the two parts `a` and `bb`. -/
def twoPartBody : Bytes :=
  bytesOf "--x\r\nContent-Disposition: form-data; name=\"f\"\r\n\r\na\r\n--x\r\n\r\nbb\r\n--x--\r\n"

/-- A multipart body with boundary `x` whose only part is cut off before any
closing boundary line. -/
def truncatedBody : Bytes := bytesOf "--x\r\n\r\ntrunc"

/-- A body without any boundary line. -/
def garbageBody : Bytes := bytesOf "garbage"

/-- An upstream answer `200 OK` with body `hello`. -/
def respOK : Response :=
  { Status := bytesOf "200 OK"
    Header := [(bytesOf "Content-Type", [bytesOf "text/plain"])]
    Body := nopCloser (bytesOf "hello") }

/-- An upstream answer `404 Not Found`. -/
def respNotFound : Response :=
  { Status := bytesOf "404 Not Found"
    Header := []
    Body := nopCloser (bytesOf "nope") }

/-- An upstream answer whose body breaks while it is streamed. -/
def respBroken : Response :=
  { Status := bytesOf "200 OK"
    Header := []
    Body := { data := bytesOf "hel", err := some (.external 1) } }

/-- The request `POST /upload` with `X-Cache: true`, a plain body `hello`. -/
def helloRequest : Request := mkRequest (bytesOf "true") (bytesOf "text/plain") (bytesOf "hello")

/-- A `GET /upload` with `X-Cache: true` and no body, as `httputil.ReverseProxy`
hands it to the transport: the `Body` field is `nil`. -/
def bodylessRequest : Request :=
  { Method := bytesOf "GET"
    URL := bytesOf "/upload"
    Header := [(bytesOf "X-Cache", [bytesOf "true"])]
    Body := none
    MultipartForm := .unset }

/-- The request `helloRequest` sent with the method `HEAD`. -/
def helloHead : Request := { helloRequest with Method := bytesOf "HEAD" }

/-- A cache that already holds an entry under the fingerprint of `helloRequest`. -/
def hitCache : Cache :=
  { store := [(bytesOf "/uploadhello", bytesOf "HTTP/1.1 200 OK\r\n\r\nhi")]
    hits := 0, misses := 0 }

/-- A cache that holds one entry under a key no request here has. -/
def otherCache : Cache :=
  { store := [(bytesOf "/other", bytesOf "HTTP/1.1 200 OK\r\n\r\nhi")], hits := 2, misses := 5 }

/-- The two-part body sent as `text/plain`. -/
def plainTwoPart : Request := mkRequest (bytesOf "true") (bytesOf "text/plain") twoPartBody

/-- The two-part body sent as `multipart/form-data` with boundary `x`. -/
def formTwoPart : Request :=
  mkRequest (bytesOf "true") (bytesOf "multipart/form-data; boundary=x") twoPartBody

/-- The two-part body sent as `multipart/related` with boundary `x`. -/
def relatedTwoPart : Request :=
  mkRequest (bytesOf "true") (bytesOf "multipart/related; boundary=x") twoPartBody

/-- The two-part body sent as `multipart/form-data` with the boundary `x` given in
the extended form `boundary*=utf-8''x` of RFC 2231. -/
def extendedTwoPart : Request :=
  mkRequest (bytesOf "true")
    (bytesOf "multipart/form-data; boundary*=utf-8" ++ [39, 39] ++ bytesOf "x") twoPartBody

/-- The two-part body sent as `multipart/form-data` with `boundary=y`, overridden by
the extended form `boundary*=utf-8''x`. -/
def overriddenTwoPart : Request :=
  mkRequest (bytesOf "true")
    (bytesOf "multipart/form-data; boundary=y; boundary*=utf-8" ++ [39, 39] ++ bytesOf "x")
    twoPartBody

/-- The two-part body sent as `multipart/form-data` with the boundary `x` given in
two pieces, `boundary*0=""` and `boundary*1*=%78`. -/
def piecewiseTwoPart : Request :=
  mkRequest (bytesOf "true")
    (bytesOf "multipart/form-data; boundary*0=\"\"; boundary*1*=%78") twoPartBody

/-- The truncated body sent as `multipart/form-data` with boundary `x`. -/
def truncatedRequest : Request :=
  mkRequest (bytesOf "true") (bytesOf "multipart/form-data; boundary=x") truncatedBody

/-- The body without boundary lines sent as `multipart/form-data` with boundary `x`. -/
def garbageRequest : Request :=
  mkRequest (bytesOf "true") (bytesOf "multipart/form-data; boundary=x") garbageBody

/-- A second request for the same URL and body as `helloRequest`, sent with another
method and an extra header. -/
def helloAgain : Request :=
  { helloRequest with
    Method := bytesOf "PUT"
    Header := (bytesOf "Accept", [bytesOf "text/html"]) :: helloRequest.Header }

/-- Collaborators with the wire codec, an upstream that always answers `resp`, and
the given admission policy. -/
def constEnv (resp : Except Error Response) (policy : Policy) : Env :=
  { transport := fun _ => resp, write := wireWrite, readResponse := wireRead, policy := policy }

/-- The upstream answers `200 OK` with body `hello`; every entry is admitted. -/
def okEnv : Env := constEnv (.ok respOK) admitAll

/-- The upstream answers `404 Not Found`; every entry is admitted. -/
def notFoundEnv : Env := constEnv (.ok respNotFound) admitAll

/-- The upstream is unreachable; every entry is admitted. -/
def failingEnv : Env := constEnv (.error (.external 7)) admitAll

/-- The upstream answers with a body that breaks while it is read. -/
def brokenEnv : Env := constEnv (.ok respBroken) admitAll

/-- Collaborators whose upstream answers `200 OK` to a `text/plain` request and
`404 Not Found` to any other. -/
def byTypeEnv : Env :=
  { transport := fun r =>
      if Header.Get r.Header (bytesOf "Content-Type") = bytesOf "text/plain" then .ok respOK
      else .ok respNotFound
    write := wireWrite, readResponse := wireRead, policy := admitAll }


/-! ## General facts about the model -/

theorem ParseBool_nil : ParseBool [] = .error .parseBoolSyntax := by decide

theorem Header.Get_of_lookup_none (h : Header) (key : Bytes) (hl : h.lookup key = none) :
    Header.Get h key = [] := by
  simp [Header.Get, hl]

/-- On the opt-out branch `RoundTrip` is the upstream round trip and nothing else. -/
theorem RoundTrip_of_not_true (env : Env) (cache : Cache) (req : Request)
    (h : ParseBool (Header.Get req.Header (bytesOf "X-Cache")) ≠ .ok true) :
    CachingTransport.RoundTrip env cache req =
      { resp := env.transport req, req := req, cache := cache
        upstream := [req], gets := [], sets := [], log := [] } := by
  rcases hp : ParseBool (Header.Get req.Header (bytesOf "X-Cache")) with e | b
  · simp only [CachingTransport.RoundTrip, hp]
  · cases b
    · simp only [CachingTransport.RoundTrip, hp]
    · exact absurd hp h

/-- Unfolding of `RoundTrip` on the opt-in branch once the fingerprint is known. -/
theorem RoundTrip_of_key (env : Env) (cache : Cache) (req req1 : Request) (key : Bytes)
    (hc : ParseBool (Header.Get req.Header (bytesOf "X-Cache")) = .ok true)
    (hk : getKey req = (.ok key, req1)) :
    CachingTransport.RoundTrip env cache req =
      match cache.Get key with
      | (some asBytes, cache1) =>
        { resp := env.readResponse asBytes req1, req := req1, cache := cache1
          upstream := [], gets := [key], sets := [], log := [] }
      | (none, cache1) =>
        match env.transport req1 with
        | .error err =>
          { resp := .error err, req := req1, cache := cache1
            upstream := [req1], gets := [key], sets := [], log := [] }
        | .ok resp =>
          match env.write resp with
          | .error err =>
            { resp := .error err, req := req1, cache := cache1
              upstream := [req1], gets := [key], sets := [], log := [] }
          | .ok bytes =>
            match cache1.Set env.policy key bytes bytes.length with
            | (ok, cache2) =>
              { resp := env.readResponse bytes req1, req := req1, cache := cache2
                upstream := [req1], gets := [key], sets := [(key, bytes, bytes.length)]
                log := if ok then [] else [bytesOf "Set cache failed: " ++ req1.URL] } := by
  unfold CachingTransport.RoundTrip
  simp only [hc, hk]

theorem lookup_eq_none_of_not_mem {α : Type} (m : List (Bytes × α)) (k : Bytes)
    (h : k ∉ m.map Prod.fst) : m.lookup k = none := by
  induction m with
  | nil => rfl
  | cons kv t ih =>
    obtain ⟨k1, v1⟩ := kv
    simp only [List.map_cons, List.mem_cons, not_or] at h
    have hne : (k == k1) = false := by simpa using h.1
    simp [List.lookup, hne, ih h.2]

theorem lookup_append_last {α : Type} (m : List (Bytes × α)) (k : Bytes) (v : α)
    (h : k ∉ m.map Prod.fst) : (m ++ [(k, v)]).lookup k = some v := by
  induction m with
  | nil => simp [List.lookup]
  | cons kv t ih =>
    obtain ⟨k1, v1⟩ := kv
    simp only [List.map_cons, List.mem_cons, not_or] at h
    have hne : (k == k1) = false := by simpa using h.1
    simp [List.lookup, hne, ih h.2]

theorem map_replace_of_not_mem {α : Type} (m : List (Bytes × α)) (k : Bytes) (v : α)
    (h : k ∉ m.map Prod.fst) :
    m.map (fun kv => if kv.1 = k then (k, v) else kv) = m := by
  induction m with
  | nil => rfl
  | cons kv t ih =>
    obtain ⟨k1, v1⟩ := kv
    simp only [List.map_cons, List.mem_cons, not_or] at h
    have hne : k1 ≠ k := fun e => h.1 e.symm
    simp [hne, ih h.2]

theorem setEntry_last {α : Type} (m : List (Bytes × α)) (k : Bytes) (v w : α)
    (h : k ∉ m.map Prod.fst) : setEntry (m ++ [(k, v)]) k w = m ++ [(k, w)] := by
  unfold setEntry
  rw [lookup_append_last m k v h]
  simp [map_replace_of_not_mem m k w h]

theorem setEntry_new {α : Type} (m : List (Bytes × α)) (k : Bytes) (w : α)
    (h : k ∉ m.map Prod.fst) : setEntry m k w = m ++ [(k, w)] := by
  unfold setEntry
  rw [lookup_eq_none_of_not_mem m k h]
  simp

theorem map_replace_of_lookup_none {α : Type} (m : List (Bytes × α)) (k : Bytes) (v : α)
    (h : m.lookup k = none) : m.map (fun kv => if kv.1 = k then (k, v) else kv) = m := by
  induction m with
  | nil => rfl
  | cons kv t ih =>
    obtain ⟨k1, v1⟩ := kv
    simp only [List.lookup] at h
    cases hb : k == k1 with
    | true => simp [hb] at h
    | false =>
      simp only [hb] at h
      have hne : k1 ≠ k := by
        intro e
        simp [e] at hb
      simp [hne, ih h]

theorem lookup_isSome_mem {α : Type} (m : List (Bytes × α)) (k : Bytes)
    (h : (m.lookup k).isSome = true) : k ∈ m.map Prod.fst := by
  by_contra hk
  rw [lookup_eq_none_of_not_mem m k hk] at h
  simp at h

/-- A Content-Type that starts with `multipart/` is not empty. -/
theorem ne_nil_of_hasPrefix_multipart (ct : Bytes)
    (h : hasPrefix ct (bytesOf "multipart/") = true) : ct ≠ [] := by
  rintro rfl
  revert h
  decide

/-- `MultipartReader` touches nothing of the request but its multipart-form state. -/
theorem MultipartReader_snd (req : Request) :
    req.MultipartReader.2 = req ∨
      req.MultipartReader.2 = { req with MultipartForm := .byReader } := by
  unfold Request.MultipartReader
  cases hf : req.MultipartForm with
  | byReader => exact Or.inl rfl
  | parsed => exact Or.inl rfl
  | unset =>
    right
    simp only []
    by_cases hv : Header.Get req.Header (bytesOf "Content-Type") = []
    · simp only [hv, if_true]
    · simp only [hv, if_false]
      cases req.Body with
      | none => rfl
      | some body =>
        simp only []
        cases multipartBoundary req.Header <;> rfl

theorem MultipartReader_Method (req : Request) : req.MultipartReader.2.Method = req.Method := by
  rcases MultipartReader_snd req with h | h <;> rw [h]

theorem MultipartReader_Body (req : Request) : req.MultipartReader.2.Body = req.Body := by
  rcases MultipartReader_snd req with h | h <;> rw [h]

/-- The answer of `MultipartReader` depends on the request only through its body,
its Content-Type value and its multipart-form state. -/
theorem MultipartReader_congr (r1 r2 : Request) (hbody : r1.Body = r2.Body)
    (hct : Header.Get r1.Header (bytesOf "Content-Type") =
      Header.Get r2.Header (bytesOf "Content-Type"))
    (hmf : r1.MultipartForm = r2.MultipartForm) :
    r1.MultipartReader.1 = r2.MultipartReader.1 := by
  have hb : multipartBoundary r1.Header = multipartBoundary r2.Header := by
    unfold multipartBoundary
    rw [hct]
  unfold Request.MultipartReader
  rw [hmf, hct, hbody, hb]
  cases r2.MultipartForm with
  | byReader => rfl
  | parsed => rfl
  | unset =>
    simp only []
    by_cases hv : Header.Get r2.Header (bytesOf "Content-Type") = []
    · simp only [hv, if_true]
    · simp only [hv, if_false]
      cases r2.Body with
      | none => rfl
      | some body =>
        simp only []
        cases multipartBoundary r2.Header <;> rfl

/-- `getKey` on a request without a body stream panics and leaves the request alone. -/
theorem getKey_of_nil_body (req : Request) (h : req.Body = none) :
    getKey req = (.error .nilPointerDereference, req) := by
  unfold getKey
  rw [h]

/-- `getKey` never changes the method of the request. -/
theorem getKey_Method (req : Request) : (getKey req).2.Method = req.Method := by
  unfold getKey
  cases req.Body with
  | none => rfl
  | some stream =>
    simp only []
    cases stream.err with
    | some e => rfl
    | none =>
      simp only []
      split
      · have hm := MultipartReader_Method
          { req with Body := some (nopCloser stream.data) }
        revert hm
        cases Request.MultipartReader { req with Body := some (nopCloser stream.data) } with
        | mk res req2 =>
          intro hm
          cases res with
          | error e => exact hm
          | ok mpr =>
            simp only []
            cases partsLoop (stream.data.length + 1) mpr req.URL <;> exact hm
      · rfl

theorem Cache.Get_hit (c : Cache) (key v : Bytes) (h : c.store.lookup key = some v) :
    c.Get key = (some v, { c with hits := c.hits + 1 }) := by
  simp [Cache.Get, h]

theorem Cache.Get_miss (c : Cache) (key : Bytes) (h : c.store.lookup key = none) :
    c.Get key = (none, { c with misses := c.misses + 1 }) := by
  simp [Cache.Get, h]

/-- On a hit `RoundTrip` deserialises the stored bytes and touches nothing but the
hit counter. -/
theorem RoundTrip_on_hit (env : Env) (cache : Cache) (req req1 : Request) (key stored : Bytes)
    (hc : ParseBool (Header.Get req.Header (bytesOf "X-Cache")) = .ok true)
    (hk : getKey req = (.ok key, req1))
    (hs : cache.store.lookup key = some stored) :
    CachingTransport.RoundTrip env cache req =
      { resp := env.readResponse stored req1, req := req1
        cache := { cache with hits := cache.hits + 1 }
        upstream := [], gets := [key], sets := [], log := [] } := by
  rw [RoundTrip_of_key env cache req req1 key hc hk, Cache.Get_hit cache key stored hs]

/-- A `Set` for a key that is not stored leaves the stored entries alone: the entry
waits in the buffer. -/
theorem Cache.Set_new (c : Cache) (policy : Policy) (key value : Bytes) (cost : Nat)
    (victims : List Bytes) (hs : c.store.lookup key = none)
    (ha : policy c key value cost = some victims) :
    c.Set policy key value cost =
      (true, { c with setBuf := c.setBuf ++ [(key, value, victims)] }) := by
  unfold Cache.Set
  simp only [ha, map_replace_of_lookup_none c.store key value hs]

/-- Once the buffer has been applied, the entry buffered last is stored, unless the
admission policy turned it away. -/
theorem Cache.lookup_processItems (c : Cache) (buf : List (Bytes × Bytes × List Bytes))
    (key value : Bytes) (victims : List Bytes)
    (hbuf : c.setBuf = buf ++ [(key, value, victims)]) (hv : key ∉ victims) :
    c.processItems.store.lookup key = some value := by
  unfold Cache.processItems
  simp only [hbuf, List.foldl_append, List.foldl_cons, List.foldl_nil]
  unfold Cache.applyItem
  simp [hv, List.lookup]

/-- A miss answered by the upstream: the outcome of `RoundTrip` when the cache takes
the entry. -/
theorem RoundTrip_on_miss (env : Env) (cache : Cache) (req req1 : Request)
    (key bytes : Bytes) (resp : Response) (victims : List Bytes)
    (hc : ParseBool (Header.Get req.Header (bytesOf "X-Cache")) = .ok true)
    (hk : getKey req = (.ok key, req1))
    (hs : cache.store.lookup key = none)
    (hu : env.transport req1 = .ok resp)
    (hw : env.write resp = .ok bytes)
    (ha : env.policy { cache with misses := cache.misses + 1 } key bytes bytes.length =
      some victims) :
    CachingTransport.RoundTrip env cache req =
      { resp := env.readResponse bytes req1, req := req1
        cache := { cache with
          misses := cache.misses + 1
          setBuf := cache.setBuf ++ [(key, bytes, victims)] }
        upstream := [req1], gets := [key], sets := [(key, bytes, bytes.length)], log := [] } := by
  rw [RoundTrip_of_key env cache req req1 key hc hk, Cache.Get_miss cache key hs]
  simp only [hu, hw]
  rw [Cache.Set_new { cache with misses := cache.misses + 1 } env.policy key bytes bytes.length
    victims hs ha]
  simp

/-- The boundary parameter in its RFC 2231 forms: given as `boundary*`, overriding a
plain `boundary`, and stitched from numbered pieces; and a media type that only
`strings.ToLower` turns into `multipart/mixed`. -/
theorem multipartBoundary_extended :
    multipartBoundary extendedTwoPart.Header = .ok (bytesOf "x") ∧
      multipartBoundary overriddenTwoPart.Header = .ok (bytesOf "x") ∧
      multipartBoundary piecewiseTwoPart.Header = .ok (bytesOf "x") ∧
      multipartBoundary [(bytesOf "Content-Type",
        [bytesOf "multipart/m" ++ [0xC4, 0xB0] ++ bytesOf "xed;" ++ [0xC2, 0xA0] ++
          bytesOf "boundary=x"])] = .ok (bytesOf "x") := by
  decide

/-! ## C3: passthrough -/

/-- C3. When the `X-Cache` header is absent, parses as false, or does not parse as a
boolean, `RoundTrip` hands the untouched request to the upstream transport and
returns its result; no fingerprint is computed (the request, its body included, is
left as it was), no cache lookup or offer is made, and the cache, its hit counter
included, is unchanged. -/
theorem RoundTrip_passthrough (env : Env) (cache : Cache) (req : Request)
    (h : req.Header.lookup (bytesOf "X-Cache") = none ∨
      ParseBool (Header.Get req.Header (bytesOf "X-Cache")) = .ok false ∨
      ∃ e, ParseBool (Header.Get req.Header (bytesOf "X-Cache")) = .error e) :
    CachingTransport.RoundTrip env cache req =
      { resp := env.transport req, req := req, cache := cache
        upstream := [req], gets := [], sets := [], log := [] } := by
  apply RoundTrip_of_not_true
  rcases h with h | h | ⟨e, h⟩
  · rw [Header.Get_of_lookup_none _ _ h, ParseBool_nil]
    simp
  · rw [h]
    simp
  · rw [h]
    simp

/-- C3 at a concrete request: `X-Cache: maybe` does not parse, and a cache that
already holds the fingerprint of the request is neither read nor written. -/
theorem RoundTrip_passthrough_witness :
    CachingTransport.RoundTrip okEnv
        { store := [(bytesOf "/uploadhello", bytesOf "stale")], hits := 3, misses := 4 }
        (mkRequest (bytesOf "maybe") (bytesOf "text/plain") (bytesOf "hello")) =
      { resp := .ok respOK
        req := mkRequest (bytesOf "maybe") (bytesOf "text/plain") (bytesOf "hello")
        cache := { store := [(bytesOf "/uploadhello", bytesOf "stale")], hits := 3, misses := 4 }
        upstream := [mkRequest (bytesOf "maybe") (bytesOf "text/plain") (bytesOf "hello")]
        gets := [], sets := [], log := [] } :=
  RoundTrip_passthrough okEnv _ _
    (Or.inr (Or.inr ⟨.parseBoolSyntax, by decide⟩))

/-! ## C4: cache hit -/

/-- C4. With `X-Cache` true and the fingerprint present in the cache, `RoundTrip`
returns the response deserialised from the stored bytes and makes no upstream call:
nothing is offered to the cache, only the hit counter moves, and any two sets of
collaborators that share the deserialiser produce the same outcome, whatever their
upstream transports would have answered. -/
theorem RoundTrip_hit (env : Env) (cache : Cache) (req req1 : Request) (key stored : Bytes)
    (hc : ParseBool (Header.Get req.Header (bytesOf "X-Cache")) = .ok true)
    (hk : getKey req = (.ok key, req1))
    (hs : cache.store.lookup key = some stored) :
    CachingTransport.RoundTrip env cache req =
        { resp := env.readResponse stored req1, req := req1
          cache := { cache with hits := cache.hits + 1 }
          upstream := [], gets := [key], sets := [], log := [] } ∧
      ∀ env2 : Env, env2.readResponse = env.readResponse →
        CachingTransport.RoundTrip env2 cache req = CachingTransport.RoundTrip env cache req := by
  have h : ∀ e : Env, CachingTransport.RoundTrip e cache req =
      { resp := e.readResponse stored req1, req := req1
        cache := { cache with hits := cache.hits + 1 }
        upstream := [], gets := [key], sets := [], log := [] } :=
    fun e => RoundTrip_on_hit e cache req req1 key stored hc hk hs
  refine ⟨h env, ?_⟩
  intro env2 h2
  rw [h env, h env2, h2]

/-- C4 at a concrete request: the stored bytes are replayed although the upstream
fails. -/
theorem RoundTrip_hit_witness :
    CachingTransport.RoundTrip failingEnv hitCache helloRequest =
        { resp := .ok { Status := bytesOf "200 OK", Header := [], Body := nopCloser (bytesOf "hi") }
          req := helloRequest
          cache := { hitCache with hits := hitCache.hits + 1 }
          upstream := [], gets := [bytesOf "/uploadhello"], sets := [], log := [] } ∧
      ∀ env2 : Env, env2.readResponse = failingEnv.readResponse →
        CachingTransport.RoundTrip env2 hitCache helloRequest =
          CachingTransport.RoundTrip failingEnv hitCache helloRequest :=
  RoundTrip_hit failingEnv hitCache helloRequest helloRequest
    (bytesOf "/uploadhello") (bytesOf "HTTP/1.1 200 OK\r\n\r\nhi")
    (by decide) (by decide) (by decide)

/-! ## C9: upstream failure on a miss -/

/-- C9. With `X-Cache` true and the fingerprint absent from the cache, a failing
upstream round trip makes `RoundTrip` return that failure and no response; no `Set`
is attempted and the stored entries are unchanged (the lookup is counted as a miss,
the hit counter does not move). -/
theorem RoundTrip_upstream_failure (env : Env) (cache : Cache) (req req1 : Request)
    (key : Bytes) (err : Error)
    (hc : ParseBool (Header.Get req.Header (bytesOf "X-Cache")) = .ok true)
    (hk : getKey req = (.ok key, req1))
    (hs : cache.store.lookup key = none)
    (hu : env.transport req1 = .error err) :
    CachingTransport.RoundTrip env cache req =
        { resp := .error err, req := req1
          cache := { cache with misses := cache.misses + 1 }
          upstream := [req1], gets := [key], sets := [], log := [] } ∧
      (CachingTransport.RoundTrip env cache req).cache.store = cache.store ∧
      (CachingTransport.RoundTrip env cache req).cache.hits = cache.hits := by
  have h : CachingTransport.RoundTrip env cache req =
      { resp := .error err, req := req1
        cache := { cache with misses := cache.misses + 1 }
        upstream := [req1], gets := [key], sets := [], log := [] } := by
    rw [RoundTrip_of_key env cache req req1 key hc hk, Cache.Get_miss cache key hs]
    simp only [hu]
  rw [h]
  exact ⟨rfl, rfl, rfl⟩

/-- C9 at a concrete request: the upstream fails, the cache keeps its one entry. -/
theorem RoundTrip_upstream_failure_witness :
    CachingTransport.RoundTrip failingEnv otherCache helloRequest =
        { resp := .error (.external 7), req := helloRequest
          cache := { otherCache with misses := otherCache.misses + 1 }
          upstream := [helloRequest], gets := [bytesOf "/uploadhello"], sets := [], log := [] } ∧
      (CachingTransport.RoundTrip failingEnv otherCache helloRequest).cache.store =
        otherCache.store ∧
      (CachingTransport.RoundTrip failingEnv otherCache helloRequest).cache.hits =
        otherCache.hits :=
  RoundTrip_upstream_failure failingEnv otherCache helloRequest
    helloRequest (bytesOf "/uploadhello") (.external 7) (by decide) (by decide) (by decide) rfl

/-! ## C10: a successful miss -/

/-- C10, refuted as stated. The upstream round trip succeeds (it returns a response
and no error), `X-Cache` is true and the fingerprint is not cached, yet the body of
the response breaks while `Response.Write` drains it: `RoundTrip` returns that error
and offers the cache nothing. -/
theorem RoundTrip_miss_unserialisable :
    ParseBool (Header.Get helloRequest.Header (bytesOf "X-Cache")) = .ok true ∧
      getKey helloRequest = (.ok (bytesOf "/uploadhello"), helloRequest) ∧
      Cache.empty.store.lookup (bytesOf "/uploadhello") = none ∧
      brokenEnv.transport helloRequest = .ok respBroken ∧
      (CachingTransport.RoundTrip brokenEnv Cache.empty helloRequest).sets = [] ∧
      (CachingTransport.RoundTrip brokenEnv Cache.empty helloRequest).resp =
        .error (.external 1) := by
  decide

/-- C10, amended. With `X-Cache` true, the fingerprint absent from the cache, a
successful upstream round trip and a response that `Response.Write` serialises
without error, `RoundTrip` offers the cache exactly one entry (key = the
fingerprint, value = the serialised bytes, cost = their length) and returns the
response deserialised from those bytes; both hold for every admission policy, so
the returned response is the same whether the cache accepts or rejects the entry. -/
theorem RoundTrip_miss_success (env : Env) (cache : Cache) (req req1 : Request)
    (key bytes : Bytes) (resp : Response)
    (hc : ParseBool (Header.Get req.Header (bytesOf "X-Cache")) = .ok true)
    (hk : getKey req = (.ok key, req1))
    (hs : cache.store.lookup key = none)
    (hu : env.transport req1 = .ok resp)
    (hw : env.write resp = .ok bytes)
    (policy : Policy) :
    (CachingTransport.RoundTrip (env.withPolicy policy) cache req).sets =
        [(key, bytes, bytes.length)] ∧
      (CachingTransport.RoundTrip (env.withPolicy policy) cache req).resp =
        env.readResponse bytes req1 ∧
      (CachingTransport.RoundTrip (env.withPolicy policy) cache req).upstream = [req1] := by
  rw [RoundTrip_of_key _ cache req req1 key hc hk, Cache.Get_miss cache key hs]
  simp [Env.withPolicy, hu, hw]

/-- C10 amended, at a concrete request and a policy that rejects the entry. -/
theorem RoundTrip_miss_success_witness :
    (CachingTransport.RoundTrip (okEnv.withPolicy rejectAll)
        Cache.empty helloRequest).sets =
        [(bytesOf "/uploadhello",
          bytesOf "HTTP/1.1 200 OK\r\nContent-Type: text/plain\r\n\r\nhello", 50)] ∧
      (CachingTransport.RoundTrip (okEnv.withPolicy rejectAll)
        Cache.empty helloRequest).resp =
        wireRead (bytesOf "HTTP/1.1 200 OK\r\nContent-Type: text/plain\r\n\r\nhello")
          helloRequest ∧
      (CachingTransport.RoundTrip (okEnv.withPolicy rejectAll)
        Cache.empty helloRequest).upstream = [helloRequest] :=
  RoundTrip_miss_success okEnv Cache.empty helloRequest helloRequest
    (bytesOf "/uploadhello") (bytesOf "HTTP/1.1 200 OK\r\nContent-Type: text/plain\r\n\r\nhello")
    respOK (by decide) (by decide) (by decide) rfl (by decide) rejectAll

/-! ## C6: the fingerprint of a plain body -/

/-- For a request whose Content-Type does not start with `multipart/` and whose body
is a stream that delivers `B` and ends cleanly, `getKey` succeeds with the URL bytes
followed by the bytes of `B` (and leaves the request as it was). -/
theorem getKey_plain (req : Request) (B : Bytes)
    (hct : hasPrefix (Header.Get req.Header (bytesOf "Content-Type")) (bytesOf "multipart/") =
      false)
    (hb : req.Body = some (nopCloser B)) :
    getKey req = (.ok (req.URL ++ B), req) := by
  obtain ⟨m, u, h, b, f⟩ := req
  simp only at hb hct
  subst hb
  simp [getKey, nopCloser, hct]

/-- The plain fingerprint at a concrete request. -/
theorem getKey_plain_hello :
    getKey helloRequest = (.ok (helloRequest.URL ++ bytesOf "hello"), helloRequest) :=
  getKey_plain helloRequest (bytesOf "hello") (by decide) rfl

/-- C6, evaluated at the failing input. A `GET` without a body reaches the transport
with a `nil` body. Its Content-Type does not start with `multipart/` and its body,
the empty one, has nothing that could fail to be read; the claim makes `getKey`
return the bare URL. `getKey` panics instead, and `RoundTrip` with it: no response
is returned, no upstream call is made and the cache is not consulted. -/
theorem getKey_nil_body_panics :
    bodylessRequest.Body = none ∧
      hasPrefix (Header.Get bodylessRequest.Header (bytesOf "Content-Type"))
        (bytesOf "multipart/") = false ∧
      ParseBool (Header.Get bodylessRequest.Header (bytesOf "X-Cache")) = .ok true ∧
      getKey bodylessRequest = (.error .nilPointerDereference, bodylessRequest) ∧
      (getKey bodylessRequest).1 ≠ .ok (bodylessRequest.URL ++ []) ∧
      CachingTransport.RoundTrip okEnv Cache.empty bodylessRequest =
        { resp := .error .nilPointerDereference, req := bodylessRequest, cache := Cache.empty
          upstream := [], gets := [], sets := [], log := [] } := by
  decide

/-! ## C7: determinism of the fingerprint -/

/-- The boundary `MultipartReader` extracts depends on the header only through the
Content-Type value. -/
theorem multipartBoundary_congr (h1 h2 : Header)
    (h : Header.Get h1 (bytesOf "Content-Type") = Header.Get h2 (bytesOf "Content-Type")) :
    multipartBoundary h1 = multipartBoundary h2 := by
  unfold multipartBoundary
  rw [h]

/-- The result of `getKey` depends on the request only through its URL, its body,
its Content-Type value and its multipart-form state. -/
theorem getKey_congr (r1 r2 : Request) (hurl : r1.URL = r2.URL) (hbody : r1.Body = r2.Body)
    (hct : Header.Get r1.Header (bytesOf "Content-Type") =
      Header.Get r2.Header (bytesOf "Content-Type"))
    (hmf : r1.MultipartForm = r2.MultipartForm) :
    (getKey r1).1 = (getKey r2).1 ∧ (getKey r1).2.Body = (getKey r2).2.Body := by
  obtain ⟨m1, u1, h1, b1, f1⟩ := r1
  obtain ⟨m2, u2, h2, b2, f2⟩ := r2
  simp only at hurl hbody hct hmf
  subst hurl hbody hmf
  unfold getKey
  simp only [hct]
  cases b1 with
  | none => exact ⟨rfl, rfl⟩
  | some stream =>
    simp only []
    cases stream.err with
    | some e => exact ⟨rfl, rfl⟩
    | none =>
      simp only []
      split
      · have hres := MultipartReader_congr
          { Method := m1, URL := u1, Header := h1, Body := some (nopCloser stream.data)
            MultipartForm := f1 }
          { Method := m2, URL := u1, Header := h2, Body := some (nopCloser stream.data)
            MultipartForm := f1 } rfl hct rfl
        have hb1 := MultipartReader_Body
          { Method := m1, URL := u1, Header := h1, Body := some (nopCloser stream.data)
            MultipartForm := f1 }
        have hb2 := MultipartReader_Body
          { Method := m2, URL := u1, Header := h2, Body := some (nopCloser stream.data)
            MultipartForm := f1 }
        revert hres hb1 hb2
        cases Request.MultipartReader
          { Method := m1, URL := u1, Header := h1, Body := some (nopCloser stream.data)
            MultipartForm := f1 } with
        | mk res1 q1 =>
          cases Request.MultipartReader
            { Method := m2, URL := u1, Header := h2, Body := some (nopCloser stream.data)
              MultipartForm := f1 } with
          | mk res2 q2 =>
            intro hres hb1 hb2
            simp only at hres hb1 hb2
            subst hres
            cases res1 with
            | error e => exact ⟨rfl, hb1.trans hb2.symm⟩
            | ok mpr =>
              simp only []
              cases partsLoop (stream.data.length + 1) mpr u1 <;> exact ⟨rfl, rfl⟩
      · exact ⟨rfl, rfl⟩

/-- C7, refuted as stated. Two requests with the same URL and the same body bytes,
one declared `text/plain` and one declared `multipart/form-data`, get different
fingerprints: the first is the URL followed by the raw body, the second the URL
followed by the part payloads. -/
theorem getKey_differs_by_content_type :
    plainTwoPart.URL = formTwoPart.URL ∧ plainTwoPart.Body = formTwoPart.Body ∧
      (getKey plainTwoPart).1 = .ok (bytesOf "/upload" ++ twoPartBody) ∧
      (getKey formTwoPart).1 = .ok (bytesOf "/uploadabb") ∧
      (getKey plainTwoPart).1 ≠ (getKey formTwoPart).1 := by
  decide

/-- C7, amended. Two requests with identical URL, identical body, identical
Content-Type value and the same multipart-form state get identical results from
`getKey`, whatever else (method, other headers) differs between them. -/
theorem getKey_deterministic (r1 r2 : Request) (hurl : r1.URL = r2.URL)
    (hbody : r1.Body = r2.Body)
    (hct : Header.Get r1.Header (bytesOf "Content-Type") =
      Header.Get r2.Header (bytesOf "Content-Type"))
    (hmf : r1.MultipartForm = r2.MultipartForm) :
    (getKey r1).1 = (getKey r2).1 :=
  (getKey_congr r1 r2 hurl hbody hct hmf).1

/-- C7 amended, at two requests that differ in method and in an extra header. -/
theorem getKey_deterministic_witness :
    (getKey formTwoPart).1 =
      (getKey { formTwoPart with
        Method := bytesOf "PUT"
        Header := (bytesOf "Accept", [bytesOf "*/*"]) :: formTwoPart.Header }).1 :=
  getKey_deterministic formTwoPart _ rfl rfl (by decide) rfl

/-! ## C1: the body after fingerprinting -/

/-- C1, refuted as stated. A request declared `multipart/form-data` whose only part
is cut off has a fully readable body, but `getKey` fails while reading the part and
returns with the body consumed: reading it afterwards yields nothing. -/
theorem getKey_truncated_part_drains_body :
    truncatedRequest.Body = some (nopCloser truncatedBody) ∧
      (getKey truncatedRequest).1 = .error .unexpectedEOF ∧
      ReadAll (getKey truncatedRequest).2.Body = .ok [] ∧
      ReadAll (getKey truncatedRequest).2.Body ≠ .ok truncatedBody := by
  decide

/-- C1, amended. For every URL, every Content-Type and every fully readable body
`B`, whenever `getKey` returns a fingerprint, and also when it fails because
`MultipartReader` rejects the request, reading `req.Body` to the end afterwards
yields exactly `B`. -/
theorem getKey_body_replayable (req : Request) (B : Bytes)
    (hb : req.Body = some (nopCloser B))
    (hk : (∃ key, (getKey req).1 = .ok key) ∨ (∃ e, req.MultipartReader.1 = .error e)) :
    ReadAll (getKey req).2.Body = .ok B := by
  obtain ⟨m, u, h, b, f⟩ := req
  simp only at hb
  subst hb
  have hbody := MultipartReader_Body
    { Method := m, URL := u, Header := h, Body := some (nopCloser B), MultipartForm := f }
  revert hk hbody
  unfold getKey
  simp only [nopCloser]
  split
  · cases Request.MultipartReader
      { Method := m, URL := u, Header := h, Body := some { data := B, err := none }
        MultipartForm := f } with
    | mk res req2 =>
      intro hk hbody
      simp only at hbody
      cases res with
      | error e => simp [ReadAll, Stream.readAll, hbody]
      | ok mpr =>
        revert hk
        simp only []
        cases hpl : partsLoop (B.length + 1) mpr u with
        | error e => simp
        | ok k => intro _; simp [ReadAll, Stream.readAll]
  · intro _ _
    simp [ReadAll, Stream.readAll]

/-- C1 amended, at a multipart request: the body reads back in full. -/
theorem getKey_body_replayable_witness :
    ReadAll (getKey formTwoPart).2.Body = .ok twoPartBody :=
  getKey_body_replayable formTwoPart twoPartBody rfl (Or.inl ⟨bytesOf "/uploadabb", by decide⟩)

/-! ## C8: a declared multipart body that is not one -/

/-- Whatever error the first `NextPart` reports, `getKey` on a request that
`MultipartReader` accepts returns the bare URL as fingerprint and no error. -/
theorem getKey_first_NextPart_error (req : Request) (b : Bytes) (e : Error)
    (hct : hasPrefix (Header.Get req.Header (bytesOf "Content-Type")) (bytesOf "multipart/") =
      true)
    (hmf : req.MultipartForm = .unset)
    (hmb : multipartBoundary req.Header = .ok b)
    (B : Bytes) (hbody : req.Body = some (nopCloser B))
    (hnp : (NewReader B b).NextPart = .error e) :
    (getKey req).1 = .ok req.URL := by
  obtain ⟨m, u, h, body, f⟩ := req
  simp only at hct hmf hmb hbody hnp
  subst hmf hbody
  unfold getKey
  simp only [nopCloser, hct, if_true]
  unfold Request.MultipartReader
  simp only [hmb, ne_nil_of_hasPrefix_multipart _ hct, if_false]
  unfold partsLoop
  simp only [hnp]

/-- C8, evaluated at the failing input. The body `garbage` holds no boundary line:
`NextPart` fails on its first call, and `getKey` still returns a fingerprint, the
bare URL, without any error. -/
theorem getKey_unparsable_multipart :
    hasPrefix (Header.Get garbageRequest.Header (bytesOf "Content-Type"))
        (bytesOf "multipart/") = true ∧
      (NewReader garbageBody (bytesOf "x")).NextPart = .error .nextPartRead ∧
      (getKey garbageRequest).1 = .ok (bytesOf "/upload") := by
  decide

/-! ## The recursion bounds are never reached

Every bounded loop of the model is entered with a bound larger than the number of
bytes it still has to read, and each iteration consumes at least one byte: raising
the bound never changes a result. The loop that stitches the pieces of an RFC 2231
parameter is bounded by the number of pieces, and stops before it has tried that
many numbers. -/

theorem span_length (p : UInt8 → Bool) (buf l rest : Bytes) (h : buf.span p = (l, rest)) :
    l.length + rest.length = buf.length := by
  rw [List.span_eq_take_drop] at h
  have h1 := List.takeWhile_append_dropWhile p buf
  cases h
  rw [← List.length_append, h1]

theorem readLineSlice_length (buf line rest : Bytes) (h : readLineSlice buf = some (line, rest)) :
    rest.length < buf.length := by
  unfold readLineSlice at h
  cases buf with
  | nil => simp at h
  | cons c t =>
    simp only at h
    split at h
    · rename_i l hs
      simp only [Option.some.injEq, Prod.mk.injEq] at h
      rw [← h.2]
      simp
    · rename_i l x r hs
      have := span_length _ _ _ _ hs
      simp only [Option.some.injEq, Prod.mk.injEq] at h
      rw [← h.2]
      simp only [List.length_cons] at this ⊢
      omega

theorem dropWhile_length_le (p : UInt8 → Bool) (l : Bytes) :
    (l.dropWhile p).length ≤ l.length :=
  (List.dropWhile_suffix p).length_le

theorem readContinuation_fuel (n m : Nat) (buf acc : Bytes) (hn : buf.length < n)
    (hm : buf.length < m) : readContinuation n buf acc = readContinuation m buf acc := by
  induction n generalizing m buf acc with
  | zero => omega
  | succ n ih =>
    cases m with
    | zero => omega
    | succ m =>
      unfold readContinuation
      simp only []
      split
      · rfl
      · rename_i hlen
        cases hl : readLineSlice (buf.dropWhile (fun c => c = 32 || c = 9)) with
        | none => rfl
        | some lr =>
          obtain ⟨line, rest⟩ := lr
          simp only []
          have h1 := readLineSlice_length _ _ _ hl
          have h2 := dropWhile_length_le (fun c => c = 32 || c = 9) buf
          exact ih m rest _ (by omega) (by omega)

theorem readContinuation_length (n : Nat) (buf acc : Bytes) :
    (readContinuation n buf acc).2.length ≤ buf.length := by
  induction n generalizing buf acc with
  | zero => simp [readContinuation]
  | succ n ih =>
    unfold readContinuation
    simp only []
    split
    · simp
    · cases hl : readLineSlice (buf.dropWhile (fun c => c = 32 || c = 9)) with
      | none =>
        simp only []
        exact dropWhile_length_le _ buf
      | some lr =>
        obtain ⟨line, rest⟩ := lr
        simp only []
        have h1 := readLineSlice_length _ _ _ hl
        have h2 := dropWhile_length_le (fun c => c = 32 || c = 9) buf
        have h3 := ih rest (acc ++ [32] ++ trimLWS line)
        omega

theorem readContinuedLineSlice_length (buf kv rest : Bytes)
    (h : readContinuedLineSlice buf = .ok (kv, rest)) : rest.length < buf.length := by
  unfold readContinuedLineSlice at h
  cases hl : readLineSlice buf with
  | none => simp [hl] at h
  | some lr =>
    obtain ⟨line, r1⟩ := lr
    have h1 := readLineSlice_length _ _ _ hl
    simp only [hl] at h
    split at h
    · simp only [Except.ok.injEq, Prod.mk.injEq] at h
      rw [← h.2]
      exact h1
    · split at h
      · simp at h
      · simp only [Except.ok.injEq] at h
        have h2 := readContinuation_length (r1.length + 1) r1 (trimLWS line)
        rw [h] at h2
        simp only at h2
        omega

theorem readMIMEHeaderLoop_fuel (n m : Nat) (buf : Bytes) (hdr : List (Bytes × Bytes))
    (hn : buf.length < n) (hm : buf.length < m) :
    readMIMEHeaderLoop n buf hdr = readMIMEHeaderLoop m buf hdr := by
  induction n generalizing m buf hdr with
  | zero => omega
  | succ n ih =>
    cases m with
    | zero => omega
    | succ m =>
      unfold readMIMEHeaderLoop
      cases hl : readContinuedLineSlice buf with
      | error e => rfl
      | ok kvr =>
        obtain ⟨kv, rest⟩ := kvr
        have h1 := readContinuedLineSlice_length _ _ _ hl
        simp only []
        split
        · rfl
        · split
          · rfl
          · split
            · rfl
            · split
              · rfl
              · split
                · exact ih m rest _ (by omega) (by omega)
                · exact ih m rest _ (by omega) (by omega)

theorem readMIMEHeaderLoop_length (n : Nat) (buf rest : Bytes) (hdr out : List (Bytes × Bytes))
    (h : readMIMEHeaderLoop n buf hdr = .ok (out, rest)) : rest.length < buf.length := by
  induction n generalizing buf hdr with
  | zero => simp [readMIMEHeaderLoop] at h
  | succ n ih =>
    unfold readMIMEHeaderLoop at h
    cases hl : readContinuedLineSlice buf with
    | error e => simp [hl] at h
    | ok kvr =>
      obtain ⟨kv, r1⟩ := kvr
      have h1 := readContinuedLineSlice_length _ _ _ hl
      simp only [hl] at h
      split at h
      · simp only [Except.ok.injEq, Prod.mk.injEq] at h
        rw [← h.2]
        exact h1
      · split at h
        · simp at h
        · split at h
          · simp at h
          · split at h
            · simp at h
            · split at h
              · have := ih _ _ h
                omega
              · have := ih _ _ h
                omega

theorem readMIMEHeader_length (buf rest : Bytes) (out : List (Bytes × Bytes))
    (h : readMIMEHeader buf = .ok (out, rest)) : rest.length < buf.length := by
  unfold readMIMEHeader at h
  split at h
  · split at h
    · simp at h
    · exact readMIMEHeaderLoop_length _ _ _ _ _ h
  · exact readMIMEHeaderLoop_length _ _ _ _ _ h

theorem newPart_length (r r1 : Reader) (p : Part) (h : newPart r = .ok (p, r1)) :
    r1.buf.length < r.buf.length := by
  unfold newPart at h
  cases hh : readMIMEHeader r.buf with
  | error e => simp [hh] at h
  | ok res =>
    obtain ⟨hdr, rest⟩ := res
    have h1 := readMIMEHeader_length _ _ _ hh
    simp only [hh, Except.ok.injEq, Prod.mk.injEq] at h
    rw [← h.2]
    exact h1

theorem isBoundaryDelimiterLine_buf (r : Reader) (line : Bytes) :
    (r.isBoundaryDelimiterLine line).2.buf = r.buf := by
  unfold Reader.isBoundaryDelimiterLine
  split
  · rfl
  · simp only []
    split <;> rfl

theorem nextPartLoop_length (n : Nat) (r r1 : Reader) (e : Bool) (p : Part)
    (h : r.nextPartLoop n e = .ok (p, r1)) : r1.buf.length < r.buf.length := by
  induction n generalizing r e with
  | zero => simp [Reader.nextPartLoop] at h
  | succ n ih =>
    unfold Reader.nextPartLoop at h
    cases hs : r.buf.span (· != 10) with
    | mk l t =>
      have hlen := span_length _ _ _ _ hs
      cases t with
      | nil =>
        simp only [hs] at h
        split at h
        · simp at h
        · simp at h
      | cons c rest =>
        simp only [hs, List.length_cons] at h hlen
        simp only [Bool.false_eq_true, false_and, if_false] at h
        cases hd : r.isBoundaryDelimiterLine (l ++ [c]) with
        | mk isDelim r2 =>
          simp only [hd] at h
          split at h
          · have := newPart_length _ _ _ h
            simp only at this
            omega
          · split at h
            · simp at h
            · split at h
              · simp at h
              · split at h
                · have := ih _ _ h
                  simp only at this
                  omega
                · split at h
                  · have := ih _ _ h
                    simp only at this
                    omega
                  · simp at h

theorem nextPartLoop_fuel (n m : Nat) (r : Reader) (e : Bool) (hn : r.buf.length < n)
    (hm : r.buf.length < m) : r.nextPartLoop n e = r.nextPartLoop m e := by
  induction n generalizing m r e with
  | zero => omega
  | succ n ih =>
    cases m with
    | zero => omega
    | succ m =>
      unfold Reader.nextPartLoop
      cases hs : r.buf.span (· != 10) with
      | mk l t =>
        have hlen := span_length _ _ _ _ hs
        cases t with
        | nil => rfl
        | cons c rest =>
          simp only [List.length_cons] at hlen
          simp only [Bool.false_eq_true, false_and, if_false]
          cases hd : r.isBoundaryDelimiterLine (l ++ [c]) with
          | mk isDelim r2 =>
            simp only []
            split
            · rfl
            · split
              · rfl
              · split
                · rfl
                · split
                  · exact ih m _ _ (by simp only; omega) (by simp only; omega)
                  · split
                    · exact ih m _ _ (by simp only; omega) (by simp only; omega)
                    · rfl

theorem NextPart_length (r r1 : Reader) (p : Part) (h : r.NextPart = .ok (p, r1)) :
    r1.buf.length < r.buf.length := by
  unfold Reader.NextPart at h
  split at h
  · simp at h
  · exact nextPartLoop_length _ _ _ _ _ h

theorem readPartRaw_length (n : Nat) (r : Reader) (buf : Bytes) (total : Nat) (acc : Bytes) :
    (readPartRaw n r buf total acc).2.1.length ≤ buf.length := by
  induction n generalizing buf total acc with
  | zero => simp [readPartRaw]
  | succ n ih =>
    unfold readPartRaw
    split
    · rename_i k hk
      have := ih (buf.drop k) (total + k) (acc ++ buf.take k)
      simp only [List.length_drop] at this
      omega
    · simp
    · simp

theorem Part.readAll_length (p : Part) (r : Reader) :
    (p.readAll r).2.buf.length ≤ r.buf.length := by
  unfold Part.readAll
  have := readPartRaw_length (r.buf.length + 1) r r.buf 0 []
  cases hr : readPartRaw (r.buf.length + 1) r r.buf 0 [] with
  | mk data rest2 =>
    obtain ⟨rest, err⟩ := rest2
    rw [hr] at this
    simp only at this ⊢
    split
    · exact this
    · split <;> exact this

/-- The loop of `getKey` makes fewer iterations than the body has bytes: any bound
above the number of unread bytes gives the same result. -/
theorem partsLoop_fuel (n m : Nat) (r : Reader) (key : Bytes) (hn : r.buf.length < n)
    (hm : r.buf.length < m) : partsLoop n r key = partsLoop m r key := by
  induction n generalizing m r key with
  | zero => omega
  | succ n ih =>
    cases m with
    | zero => omega
    | succ m =>
      unfold partsLoop
      cases hnp : r.NextPart with
      | error e => rfl
      | ok res =>
        obtain ⟨part, r1⟩ := res
        have h1 := NextPart_length _ _ _ hnp
        simp only []
        have h2 := Part.readAll_length part r1
        cases hra : part.readAll r1 with
        | mk res2 r2 =>
          rw [hra] at h2
          simp only at h2
          cases res2 with
          | error e => rfl
          | ok bytes => exact ih m r2 _ (by omega) (by omega)

theorem matchAfterPrefix_ne_zero (buf pre : Bytes) (e : Error) (h : pre.length ≤ buf.length) :
    matchAfterPrefix buf pre (some e) ≠ 0 := by
  unfold matchAfterPrefix
  split
  · simp
  · rename_i hne
    cases hd : buf.drop pre.length with
    | nil =>
      have : (buf.drop pre.length).length = 0 := by rw [hd]; rfl
      simp only [List.length_drop] at this
      omega
    | cons c t =>
      simp only []
      split
      · decide
      · split
        · cases t with
          | nil => simp
          | cons d t2 =>
            simp only []
            split <;> decide
        · decide

theorem hasPrefix_length (s pre : Bytes) (h : hasPrefix s pre = true) : pre.length ≤ s.length :=
  (List.isPrefixOf_iff_prefix.mp h).length_le

theorem index_some_prefix (s sep : Bytes) (i : Nat) (h : index s sep = some i) :
    i ≤ s.length ∧ sep <+: s.drop i := by
  induction s generalizing i with
  | nil =>
    unfold index at h
    split at h
    · rename_i he
      simp only [Option.some.injEq] at h
      subst h
      exact ⟨by simp, by simpa using he⟩
    · simp at h
  | cons c t ih =>
    unfold index at h
    split at h
    · rename_i hp
      simp only [Option.some.injEq] at h
      subst h
      exact ⟨by simp, by simpa using List.isPrefixOf_iff_prefix.mp hp⟩
    · cases hi : index t sep with
      | none => simp [hi] at h
      | some j =>
        simp only [hi, Option.map_some', Option.some.injEq] at h
        subst h
        have := ih j hi
        exact ⟨by simp; omega, by simpa using this.2⟩

theorem lastIndexByte_lt (s : Bytes) (c : UInt8) (i : Nat) (h : lastIndexByte s c = some i) :
    i < s.length := by
  induction s generalizing i with
  | nil => simp [lastIndexByte] at h
  | cons x t ih =>
    unfold lastIndexByte at h
    cases hl : lastIndexByte t c with
    | some j =>
      simp only [hl, Option.some.injEq] at h
      subst h
      have := ih j hl
      simp
      omega
    | none =>
      simp only [hl] at h
      split at h
      · simp only [Option.some.injEq] at h
        subst h
        simp
      · simp at h

/-- With the end of input in sight, a scan that does not end the part hands over at
least one byte of data. -/
theorem scanUntilBoundary_progress (buf db nld : Bytes) (total k : Nat) (e : Error)
    (hdb : db ≠ []) (hnld : nld ≠ [])
    (h : scanUntilBoundary buf db nld total (some e) = (k, none)) :
    0 < k ∧ k ≤ buf.length := by
  have hdbl : 0 < db.length := List.length_pos.mpr hdb
  have hnldl : 0 < nld.length := List.length_pos.mpr hnld
  unfold scanUntilBoundary at h
  simp only [] at h
  split at h
  · -- decided at the start of the part body
    rename_i res hat
    split at hat
    · split at hat
      · rename_i hp
        have hlen := hasPrefix_length _ _ hp
        have hm := matchAfterPrefix_ne_zero buf db e hlen
        split at hat
        · simp only [Option.some.injEq] at hat
          subst hat
          simp only [Prod.mk.injEq] at h
          omega
        · simp only [hm, if_false, Option.some.injEq] at hat
          subst hat
          simp at h
      · split at hat
        · simp only [Option.some.injEq] at hat
          subst hat
          simp at h
        · simp at hat
    · simp at hat
  · -- searched for a line break followed by the delimiter
    split at h
    · rename_i i hi
      have hpre := index_some_prefix _ _ _ hi
      have hlen : nld.length ≤ (buf.drop i).length := hpre.2.length_le
      have hm := matchAfterPrefix_ne_zero (buf.drop i) nld e hlen
      simp only [List.length_drop] at hlen
      split at h
      · simp only [Prod.mk.injEq] at h
        omega
      · simp [hm] at h
    · split at h
      · simp at h
      · rename_i hnp
        split at h
        · rename_i i hi
          have hlt := lastIndexByte_lt _ _ _ hi
          split at h
          · rename_i hp
            simp only [Prod.mk.injEq, and_true] at h
            subst h
            refine ⟨?_, by omega⟩
            rcases Nat.eq_zero_or_pos i with h0 | h0
            · subst h0
              simp only [List.drop_zero] at hp
              exact absurd hp hnp
            · exact h0
          · simp at h
        · simp at h

theorem readPartRaw_fuel (n m : Nat) (r : Reader) (buf : Bytes) (total : Nat) (acc : Bytes)
    (hdb : r.dashBoundary ≠ []) (hnld : r.nlDashBoundary ≠ [])
    (hn : buf.length < n) (hm : buf.length < m) :
    readPartRaw n r buf total acc = readPartRaw m r buf total acc := by
  induction n generalizing m buf total acc with
  | zero => omega
  | succ n ih =>
    cases m with
    | zero => omega
    | succ m =>
      unfold readPartRaw
      cases hs : scanUntilBoundary buf r.dashBoundary r.nlDashBoundary total
          (some .unexpectedEOF) with
      | mk k err =>
        cases err with
        | none =>
          have hp := scanUntilBoundary_progress _ _ _ _ _ _ hdb hnld hs
          simp only []
          exact ih m _ _ _ (by simp only [List.length_drop]; omega)
            (by simp only [List.length_drop]; omega)
        | some e => cases e <;> rfl

theorem NewReader_wellDelimited (body boundary : Bytes) :
    (NewReader body boundary).wellDelimited :=
  ⟨boundary, rfl, Or.inl ⟨rfl, rfl⟩⟩

theorem wellDelimited_ne_nil (r : Reader) (h : r.wellDelimited) :
    r.dashBoundary ≠ [] ∧ r.nlDashBoundary ≠ [] := by
  obtain ⟨b, hdb, h1 | h1⟩ := h
  · rw [hdb, h1.2]
    simp
  · rw [hdb, h1.2.1]
    simp

theorem isBoundaryDelimiterLine_wellDelimited (r : Reader) (line : Bytes)
    (h : r.wellDelimited) :
    ((r.isBoundaryDelimiterLine line).1 = false → (r.isBoundaryDelimiterLine line).2 = r) ∧
      ∀ x, Reader.wellDelimited
        { (r.isBoundaryDelimiterLine line).2 with
          buf := x, partsRead := (r.isBoundaryDelimiterLine line).2.partsRead + 1 } := by
  obtain ⟨b, hdb, hcase⟩ := h
  unfold Reader.isBoundaryDelimiterLine
  split
  · refine ⟨fun _ => rfl, fun x => ⟨b, hdb, ?_⟩⟩
    rcases hcase with h1 | h1
    · exact Or.inl h1
    · exact Or.inr ⟨h1.1, h1.2.1, by simp⟩
  · simp only []
    split
    · rename_i hsw
      rcases hcase with h1 | h1
      · refine ⟨?_, fun x => ⟨b, hdb, Or.inr ⟨?_, ?_, by simp⟩⟩⟩
        · simp [hsw.2, h1.1]
        · simp [h1.1]
        · simp [h1.2]
      · omega
    · refine ⟨fun _ => rfl, fun x => ⟨b, hdb, ?_⟩⟩
      rcases hcase with h1 | h1
      · exact Or.inl h1
      · exact Or.inr ⟨h1.1, h1.2.1, by simp⟩

theorem newPart_wellDelimited (r r1 : Reader) (p : Part) (hr : r.wellDelimited)
    (h : newPart r = .ok (p, r1)) : r1.wellDelimited := by
  unfold newPart at h
  cases hh : readMIMEHeader r.buf with
  | error e => simp [hh] at h
  | ok res =>
    obtain ⟨hdr, rest⟩ := res
    simp only [hh, Except.ok.injEq, Prod.mk.injEq] at h
    rw [← h.2]
    exact hr

theorem nextPartLoop_wellDelimited (n : Nat) (r r1 : Reader) (e : Bool) (p : Part)
    (hr : r.wellDelimited) (h : r.nextPartLoop n e = .ok (p, r1)) : r1.wellDelimited := by
  induction n generalizing r e with
  | zero => simp [Reader.nextPartLoop] at h
  | succ n ih =>
    unfold Reader.nextPartLoop at h
    cases hs : r.buf.span (· != 10) with
    | mk l t =>
      cases t with
      | nil =>
        simp only [hs] at h
        split at h
        · simp at h
        · simp at h
      | cons c rest =>
        simp only [hs] at h
        simp only [Bool.false_eq_true, false_and, if_false] at h
        have hd2 := isBoundaryDelimiterLine_wellDelimited r (l ++ [c]) hr
        cases hd : r.isBoundaryDelimiterLine (l ++ [c]) with
        | mk isDelim r2 =>
          rw [hd] at hd2
          simp only [hd] at h
          split at h
          · exact newPart_wellDelimited _ _ _ (hd2.2 rest) h
          · rename_i hnd
            have hr2 : r2 = r := hd2.1 (by simpa using hnd)
            subst hr2
            split at h
            · simp at h
            · split at h
              · simp at h
              · split at h
                · exact ih { r2 with buf := rest } _ hr h
                · split at h
                  · exact ih { r2 with buf := rest } _ hr h
                  · simp at h

/-- Every reader `getKey` meets keeps the delimiters of `NewReader`. -/
theorem NextPart_wellDelimited (r r1 : Reader) (p : Part) (hr : r.wellDelimited)
    (h : r.NextPart = .ok (p, r1)) : r1.wellDelimited := by
  unfold Reader.NextPart at h
  split at h
  · simp at h
  · exact nextPartLoop_wellDelimited _ _ _ _ _ hr h

theorem Part.readAll_wellDelimited (p : Part) (r : Reader) (hr : r.wellDelimited) :
    (p.readAll r).2.wellDelimited := by
  unfold Part.readAll
  cases hraw : readPartRaw (r.buf.length + 1) r r.buf 0 [] with
  | mk data rest2 =>
    obtain ⟨rest, err⟩ := rest2
    simp only []
    split
    · exact hr
    · split <;> exact hr

theorem qpBytes_fuel (n m : Nat) (line acc : Bytes) (hn : line.length < n)
    (hm : line.length < m) : qpBytes n line acc = qpBytes m line acc := by
  induction n generalizing m line acc with
  | zero => omega
  | succ n ih =>
    cases m with
    | zero => omega
    | succ m =>
      unfold qpBytes
      cases line with
      | nil => rfl
      | cons b t =>
        simp only [List.length_cons] at hn hm
        simp only []
        split
        · split
          · exact ih m _ _ (by simp only [List.length_drop]; omega)
              (by simp only [List.length_drop]; omega)
          · split
            · split
              · exact ih m _ _ (by omega) (by omega)
              · rfl
            · rfl
        · split
          · exact ih m _ _ (by omega) (by omega)
          · split
            · exact ih m _ _ (by omega) (by omega)
            · split
              · rfl
              · exact ih m _ _ (by omega) (by omega)

theorem qpLine_err (whole : Bytes) (e : Error) : (qpLine whole (some e)).2 ≠ none := by
  unfold qpLine
  simp only []
  split
  · split <;> simp
  · split
    · split <;> simp
    · simp

theorem qpDecode_fuel (n m : Nat) (inp : Bytes) (srcErr : Option Error) (acc : Bytes)
    (hn : inp.length < n) (hm : inp.length < m) :
    qpDecode n inp srcErr acc = qpDecode m inp srcErr acc := by
  induction n generalizing m inp acc with
  | zero => omega
  | succ n ih =>
    cases m with
    | zero => omega
    | succ m =>
      unfold qpDecode
      cases hs : inp.span (· != 10) with
      | mk l t =>
        have hlen := span_length _ _ _ _ hs
        cases t with
        | nil =>
          simp only []
          have hq := qpLine_err l (srcErr.getD .eof)
          cases hql : qpLine l (some (srcErr.getD .eof)) with
          | mk line rerr1 =>
            rw [hql] at hq
            simp only []
            cases hb : qpBytes (line.length + 1) line acc with
            | error e => rfl
            | ok acc1 =>
              simp only []
              cases rerr1 with
              | none => exact absurd rfl hq
              | some e => cases e <;> rfl
        | cons c rest =>
          simp only [List.length_cons] at hlen
          simp only []
          cases hql : qpLine (l ++ [c]) none with
          | mk line rerr1 =>
            simp only []
            cases hb : qpBytes (line.length + 1) line acc with
            | error e => rfl
            | ok acc1 =>
              simp only []
              cases rerr1 with
              | none => exact ih m rest acc1 (by omega) (by omega)
              | some e => cases e <;> rfl

theorem consumeToken_length (v : Bytes) : (consumeToken v).2.length ≤ v.length := by
  unfold consumeToken
  cases hs : v.span isTokenChar with
  | mk l rest =>
    have := span_length isTokenChar v _ _ hs
    simp only []
    omega

theorem consumeQuoted_length (v acc : Bytes) (esc : Bool) (val rest : Bytes)
    (h : consumeQuoted v acc esc = some (val, rest)) : rest.length ≤ v.length := by
  induction v generalizing acc esc with
  | nil => simp [consumeQuoted] at h
  | cons r t ih =>
    unfold consumeQuoted at h
    simp only [List.length_cons]
    split at h
    · split at h
      · have := ih _ _ h
        omega
      · split at h
        · simp at h
        · have := ih _ _ h
          omega
    · split at h
      · simp only [Option.some.injEq, Prod.mk.injEq] at h
        rw [← h.2]
        omega
      · split at h
        · have := ih _ _ h
          omega
        · split at h
          · simp at h
          · have := ih _ _ h
            omega

theorem consumeValue_length (v : Bytes) : (consumeValue v).2.length ≤ v.length := by
  unfold consumeValue
  cases v with
  | nil => simp
  | cons c t =>
    simp only []
    split
    · exact consumeToken_length _
    · cases hq : consumeQuoted t [] false with
      | none => simp
      | some r =>
        obtain ⟨val, rest⟩ := r
        have := consumeQuoted_length _ _ _ _ _ hq
        simp only [List.length_cons]
        omega

theorem dropSpaces_length (rev : Bool) (skip : Nat) (v : Bytes) :
    (dropSpaces rev skip v).length ≤ v.length := by
  induction v generalizing skip with
  | nil => simp [dropSpaces]
  | cons c t ih =>
    unfold dropSpaces
    cases skip with
    | succ k =>
      have := ih k
      simp only [List.length_cons]
      omega
    | zero =>
      simp only []
      cases leadingSpace rev (c :: t) with
      | zero => exact le_refl _
      | succ k =>
        have := ih k
        simp only [List.length_cons]
        omega

theorem trimLeftSpace_length (v : Bytes) : (trimLeftSpace v).length ≤ v.length :=
  dropSpaces_length false 0 v

theorem consumeMediaParam_length (v : Bytes) (h : (consumeMediaParam v).1 ≠ []) :
    (consumeMediaParam v).2.2.length < v.length := by
  unfold consumeMediaParam at h ⊢
  have h0 := trimLeftSpace_length v
  cases hv : trimLeftSpace v with
  | nil => simp [hv] at h
  | cons c rest0 =>
    rw [hv] at h0
    simp only [List.length_cons] at h0
    simp only [hv] at h ⊢
    split
    · rename_i hc
      simp [hc] at h
    · rename_i hc
      simp only [hc, if_false] at h
      have h1 := consumeToken_length (trimLeftSpace rest0)
      have h1' := trimLeftSpace_length rest0
      cases hct : consumeToken (trimLeftSpace rest0) with
      | mk param0 rest1 =>
        rw [hct] at h1
        simp only at h1
        simp only [hct] at h ⊢
        split
        · rename_i hp
          simp [hp] at h
        · rename_i hp
          simp only [hp, if_false] at h
          have h2 := trimLeftSpace_length rest1
          cases hr1 : trimLeftSpace rest1 with
          | nil => simp [hr1] at h
          | cons e rest2 =>
            rw [hr1] at h2
            simp only [List.length_cons] at h2
            simp only [hr1] at h ⊢
            split
            · rename_i he
              simp [he] at h
            · rename_i he
              simp only [he, if_false] at h
              have h3 := trimLeftSpace_length rest2
              have h4 := consumeValue_length (trimLeftSpace rest2)
              cases hcv : consumeValue (trimLeftSpace rest2) with
              | mk value rest4 =>
                rw [hcv] at h4
                simp only at h4
                simp only [hcv] at h ⊢
                split
                · rename_i hf
                  simp [hf] at h
                · simp only []
                  omega

theorem parseMediaParams_fuel (n m : Nat) (v : Bytes) (params : List (Bytes × Bytes))
    (continuation : List (Bytes × List (Bytes × Bytes)))
    (hn : v.length < n) (hm : v.length < m) :
    parseMediaParams n v params continuation = parseMediaParams m v params continuation := by
  induction n generalizing m v params continuation with
  | zero => omega
  | succ n ih =>
    cases m with
    | zero => omega
    | succ m =>
      unfold parseMediaParams
      simp only []
      have h0 := trimLeftSpace_length v
      split
      · rfl
      · have hlen := consumeMediaParam_length (trimLeftSpace v)
        cases hc : consumeMediaParam (trimLeftSpace v) with
        | mk key vr =>
          obtain ⟨value, rest⟩ := vr
          rw [hc] at hlen
          simp only at hlen
          simp only []
          split
          · rfl
          · rename_i hk
            have := hlen hk
            split
            · split
              · split
                · rfl
                · exact ih m _ _ _ (by omega) (by omega)
              · exact ih m _ _ _ (by omega) (by omega)
            · split
              · split
                · rfl
                · exact ih m _ _ _ (by omega) (by omega)
              · exact ih m _ _ _ (by omega) (by omega)

theorem digit_toNat (k : Nat) (h : k < 10) : ((48 : UInt8) + k.toUInt8).toNat - 48 = k := by
  interval_cases k <;> rfl

theorem digit_ne_star (k : Nat) (h : k < 10) : (48 : UInt8) + k.toUInt8 ≠ 42 := by
  interval_cases k <;> decide

theorem digitsValue_decimalDigits (fuel n : Nat) (h : n < fuel) :
    digitsValue (decimalDigits fuel n) = n := by
  induction fuel generalizing n with
  | zero => omega
  | succ fuel ih =>
    unfold decimalDigits
    simp only [digitsValue, digit_toNat (n % 10) (Nat.mod_lt _ (by decide))]
    split
    · rename_i h0
      simp only [digitsValue]
      omega
    · rename_i h0
      rw [ih (n / 10) (by omega)]
      omega

theorem decimal_injective (n m : Nat) (h : decimal n = decimal m) : n = m := by
  unfold decimal at h
  have h1 := List.reverse_injective h
  have h2 := congrArg digitsValue h1
  rwa [digitsValue_decimalDigits _ _ (by omega), digitsValue_decimalDigits _ _ (by omega)] at h2

theorem star_not_mem_decimalDigits (fuel n : Nat) : (42 : UInt8) ∉ decimalDigits fuel n := by
  induction fuel generalizing n with
  | zero => simp [decimalDigits]
  | succ fuel ih =>
    unfold decimalDigits
    simp only [List.mem_cons, not_or]
    refine ⟨fun e => digit_ne_star (n % 10) (Nat.mod_lt _ (by decide)) e.symm, ?_⟩
    split
    · simp
    · exact ih _

theorem star_not_mem_decimal (n : Nat) : (42 : UInt8) ∉ decimal n := by
  unfold decimal
  rw [List.mem_reverse]
  exact star_not_mem_decimalDigits _ _

/-- Among the numbers `0 .. pieceMap.length` there is one for which no piece is
present, in its plain or in its encoded form. -/
theorem stitchPieces_stop (key : Bytes) (pieceMap : List (Bytes × Bytes)) :
    ∃ j, j ≤ pieceMap.length ∧ pieceMap.lookup (key ++ [42] ++ decimal j) = none ∧
      pieceMap.lookup (key ++ [42] ++ decimal j ++ [42]) = none := by
  by_contra hall
  simp only [not_exists, not_and] at hall
  let f : Nat → Bytes := fun j =>
    if (pieceMap.lookup (key ++ [42] ++ decimal j)).isSome then key ++ [42] ++ decimal j
    else key ++ [42] ++ decimal j ++ [42]
  have hmem : ∀ j ∈ Finset.range (pieceMap.length + 1),
      f j ∈ (pieceMap.map Prod.fst).toFinset := by
    intro j hj
    have hj' : j ≤ pieceMap.length := by
      have := Finset.mem_range.mp hj
      omega
    rw [List.mem_toFinset]
    simp only [f]
    split
    · rename_i h1
      exact lookup_isSome_mem _ _ h1
    · rename_i h1
      have h1' : pieceMap.lookup (key ++ [42] ++ decimal j) = none := by
        cases hq : pieceMap.lookup (key ++ [42] ++ decimal j) with
        | none => rfl
        | some v => exact absurd (by rw [hq]; rfl) h1
      have h2 := hall j hj' h1'
      apply lookup_isSome_mem
      cases h3 : pieceMap.lookup (key ++ [42] ++ decimal j ++ [42]) with
      | none => exact absurd h3 h2
      | some v => rfl
  have hinj : Set.InjOn f (Finset.range (pieceMap.length + 1) : Set Nat) := by
    intro a _ b _ hab
    simp only [f] at hab
    split at hab <;> split at hab
    · exact decimal_injective a b (by simpa using hab)
    · exfalso
      have h1 : decimal a = decimal b ++ [42] := by simpa using hab
      exact star_not_mem_decimal a (by rw [h1]; simp)
    · exfalso
      have h1 : decimal a ++ [42] = decimal b := by simpa using hab
      exact star_not_mem_decimal b (by rw [← h1]; simp)
    · exact decimal_injective a b (by simpa using hab)
  have h1 := Finset.card_le_card_of_injOn f hmem hinj
  have h2 := List.toFinset_card_le (pieceMap.map Prod.fst)
  simp only [Finset.card_range, List.length_map] at h1 h2
  omega

theorem stitchPieces_fuel_of_stop (key : Bytes) (pieceMap : List (Bytes × Bytes))
    (f g n j : Nat) (buf : Bytes) (valid : Bool) (hf : j < f) (hg : j < g)
    (h1 : pieceMap.lookup (key ++ [42] ++ decimal (n + j)) = none)
    (h2 : pieceMap.lookup (key ++ [42] ++ decimal (n + j) ++ [42]) = none) :
    stitchPieces f n key pieceMap buf valid = stitchPieces g n key pieceMap buf valid := by
  induction j generalizing f g n buf valid with
  | zero =>
    cases f with
    | zero => omega
    | succ f =>
      cases g with
      | zero => omega
      | succ g =>
        simp only [Nat.add_zero] at h1 h2
        unfold stitchPieces
        simp only [h1, h2]
  | succ j ih =>
    cases f with
    | zero => omega
    | succ f =>
      cases g with
      | zero => omega
      | succ g =>
        have h1' : pieceMap.lookup (key ++ [42] ++ decimal (n + 1 + j)) = none := by
          rw [show n + 1 + j = n + (j + 1) by omega]; exact h1
        have h2' : pieceMap.lookup (key ++ [42] ++ decimal (n + 1 + j) ++ [42]) = none := by
          rw [show n + 1 + j = n + (j + 1) by omega]; exact h2
        unfold stitchPieces
        simp only []
        cases pieceMap.lookup (key ++ [42] ++ decimal n) with
        | some v => exact ih f g (n + 1) _ _ (by omega) (by omega) h1' h2'
        | none =>
          simp only []
          cases pieceMap.lookup (key ++ [42] ++ decimal n ++ [42]) with
          | none => rfl
          | some v => exact ih f g (n + 1) _ _ (by omega) (by omega) h1' h2'

/-- The bound of the stitching loop is never reached: among the numbers
`0 .. pieceMap.length` there is one for which no piece is present, and the loop
stops there. -/
theorem stitchPieces_fuel (key : Bytes) (pieceMap : List (Bytes × Bytes)) (fuel : Nat)
    (h : pieceMap.length < fuel) (buf : Bytes) (valid : Bool) :
    stitchPieces fuel 0 key pieceMap buf valid =
      stitchPieces (pieceMap.length + 1) 0 key pieceMap buf valid := by
  obtain ⟨j, hj, h1, h2⟩ := stitchPieces_stop key pieceMap
  exact stitchPieces_fuel_of_stop key pieceMap fuel _ 0 j buf valid (by omega) (by omega)
    (by simpa using h1) (by simpa using h2)

/-! ## Parsing a well-formed multipart stream -/

theorem span_ne_lf (l rest : Bytes) (h : (10 : UInt8) ∉ l) :
    (l ++ 10 :: rest).span (· != 10) = (l, 10 :: rest) := by
  rw [List.span_eq_take_drop]
  have h1 : ∀ x ∈ l, (x != 10) = true := by
    intro x hx
    simp only [bne_iff_ne, ne_eq]
    rintro rfl
    exact h hx
  rw [List.takeWhile_append_of_pos h1, List.dropWhile_append_of_pos h1]
  simp [List.takeWhile, List.dropWhile]

theorem readLineSlice_crlf (l rest : Bytes) (h : (10 : UInt8) ∉ l) :
    readLineSlice (l ++ 13 :: 10 :: rest) = some (l, rest) := by
  have hs : (l ++ 13 :: 10 :: rest).span (· != 10) = (l ++ [13], 10 :: rest) := by
    have := span_ne_lf (l ++ [13]) rest (by simp [h])
    simpa using this
  unfold readLineSlice
  cases hl : l ++ 13 :: 10 :: rest with
  | nil => simp at hl
  | cons a t =>
    rw [← hl, hs]
    simp

/-! ## The MIME header block of a well-formed part -/


theorem readContinuation_stop (fuel : Nat) (buf acc : Bytes) (h : startsPlain buf) :
    readContinuation (fuel + 1) buf acc = (acc, buf) := by
  unfold readContinuation
  cases buf with
  | nil => simp
  | cons c t =>
    have hc := h c (by simp)
    simp [List.dropWhile, hc.1, hc.2]

theorem rtrim_append_cons (p : UInt8 → Bool) (a b : Bytes) (x : UInt8) (hx : p x = false) :
    ((a ++ x :: b).reverse.dropWhile p).reverse = a ++ x :: (b.reverse.dropWhile p).reverse := by
  have h1 : (a ++ x :: b).reverse = b.reverse ++ x :: a.reverse := by simp
  rw [h1, List.dropWhile_append]
  split
  · rename_i he
    have : b.reverse.dropWhile p = [] := by simpa using he
    rw [this]
    simp [List.dropWhile, hx]
  · simp

theorem fieldByte_facts (c : UInt8) (h : validHeaderFieldByte c = true) :
    c ≠ 32 ∧ c ≠ 9 ∧ c ≠ 58 ∧ c ≠ 10 ∧ c ≠ 13 := by
  refine ⟨?_, ?_, ?_, ?_, ?_⟩ <;> (rintro rfl; revert h; decide)

theorem valueByte_facts (c : UInt8) (h : validHeaderValueByte c = true) :
    c ≠ 10 ∧ c ≠ 13 := by
  refine ⟨?_, ?_⟩ <;> (rintro rfl; revert h; decide)

theorem canonicalCase_length (a : Bytes) (u : Bool) : (canonicalCase a u).length = a.length := by
  induction a generalizing u with
  | nil => rfl
  | cons c t ih => simp [canonicalCase, ih]

theorem trimLWS_header_line (k v : Bytes) (hk : k ≠ [])
    (hkv : k.all validHeaderFieldByte = true) :
    trimLWS (k ++ 58 :: 32 :: v) =
      k ++ 58 :: ((32 :: v).reverse.dropWhile (fun c => c = 32 || c = 9)).reverse := by
  unfold trimLWS
  simp only []
  have hd : (k ++ 58 :: 32 :: v).dropWhile (fun c => c = 32 || c = 9) = k ++ 58 :: 32 :: v := by
    cases k with
    | nil => exact absurd rfl hk
    | cons c t =>
      have hc := fieldByte_facts c (by simp at hkv; exact hkv.1)
      simp [List.dropWhile, hc.1, hc.2.1]
  rw [hd]
  exact rtrim_append_cons _ k (32 :: v) 58 (by decide)

theorem span_ne_byte (x : UInt8) (l rest : Bytes) (h : x ∉ l) :
    (l ++ x :: rest).span (· != x) = (l, x :: rest) := by
  rw [List.span_eq_take_drop]
  have h1 : ∀ y ∈ l, (y != x) = true := by
    intro y hy
    simp only [bne_iff_ne, ne_eq]
    rintro rfl
    exact h hy
  rw [List.takeWhile_append_of_pos h1, List.dropWhile_append_of_pos h1]
  simp [List.takeWhile, List.dropWhile]

theorem rtrim_subset (p : UInt8 → Bool) (l : Bytes) :
    ∀ x ∈ (l.reverse.dropWhile p).reverse, x ∈ l := by
  intro x hx
  have h1 : x ∈ l.reverse.dropWhile p := List.mem_reverse.mp hx
  have h2 := (List.dropWhile_suffix p (l := l.reverse)).subset h1
  exact List.mem_reverse.mp h2

theorem readContinuedLineSlice_header (k v rest : Bytes) (hk : k ≠ [])
    (hkv : k.all validHeaderFieldByte = true) (hv : v.all validHeaderValueByte = true)
    (hrest : startsPlain rest) :
    readContinuedLineSlice (k ++ 58 :: 32 :: v ++ 13 :: 10 :: rest) =
      .ok (k ++ 58 :: ((32 :: v).reverse.dropWhile (fun c => c = 32 || c = 9)).reverse, rest) := by
  have hnl : (10 : UInt8) ∉ k ++ 58 :: 32 :: v := by
    simp only [List.mem_append, List.mem_cons, not_or]
    refine ⟨?_, by decide, by decide, ?_⟩
    · intro hm
      exact (fieldByte_facts 10 (List.all_eq_true.mp hkv 10 hm)).2.2.2.1 rfl
    · intro hm
      exact (valueByte_facts 10 (List.all_eq_true.mp hv 10 hm)).1 rfl
  have hl := readLineSlice_crlf (k ++ 58 :: 32 :: v) rest hnl
  have he : k ++ 58 :: 32 :: v ++ 13 :: 10 :: rest = (k ++ 58 :: 32 :: v) ++ 13 :: 10 :: rest := by
    simp
  unfold readContinuedLineSlice
  rw [he, hl]
  have hne : k ++ 58 :: 32 :: v ≠ [] := by simp
  have hcolon : (58 : UInt8) ∈ k ++ 58 :: 32 :: v := by simp
  simp only [hne, if_false, hcolon, not_true_eq_false]
  rw [readContinuation_stop _ _ _ hrest, trimLWS_header_line k v hk hkv]

theorem startsPlain_headerLines (hdr : List (Bytes × Bytes)) (rest : Bytes)
    (hvalid : hdr.all validHeaderLine = true) :
    startsPlain (encodeHeaderLines hdr ++ 13 :: 10 :: rest) := by
  intro c hc
  cases hdr with
  | nil =>
    simp [encodeHeaderLines] at hc
    subst hc
    decide
  | cons kv t =>
    obtain ⟨k, v⟩ := kv
    simp only [List.all_cons, Bool.and_eq_true, validHeaderLine, decide_eq_true_eq] at hvalid
    obtain ⟨⟨⟨hk, hkv⟩, _⟩, _⟩ := hvalid
    cases k with
    | nil => exact absurd rfl hk
    | cons a k' =>
      simp [encodeHeaderLines] at hc
      have := fieldByte_facts a (by simp at hkv; exact hkv.1)
      rw [← hc]
      exact ⟨this.1, this.2.1⟩

theorem canonicalMIMEHeaderKey_valid (k : Bytes) (hkv : k.all validHeaderFieldByte = true) :
    canonicalMIMEHeaderKey k = some (canonicalCase k true) := by
  unfold canonicalMIMEHeaderKey
  have h1 : k.all (fun c => validHeaderFieldByte c || c = 32) = true := by
    rw [List.all_eq_true] at hkv ⊢
    intro x hx
    simp [hkv x hx]
  have h2 : (32 : UInt8) ∉ k := by
    intro hm
    exact (fieldByte_facts 32 (List.all_eq_true.mp hkv 32 hm)).1 rfl
  simp [h1, h2]

theorem readMIMEHeaderLoop_lines (hdr : List (Bytes × Bytes)) (rest : Bytes)
    (m : List (Bytes × Bytes)) (fuel : Nat) (hf : hdr.length < fuel)
    (hvalid : hdr.all validHeaderLine = true) :
    readMIMEHeaderLoop fuel (encodeHeaderLines hdr ++ 13 :: 10 :: rest) m =
      .ok (m ++ headerAsRead hdr, rest) := by
  induction hdr generalizing m fuel with
  | nil =>
    cases fuel with
    | zero => exact absurd hf (by simp)
    | succ f =>
      have h1 : readContinuedLineSlice (13 :: 10 :: rest) = .ok ([], rest) := by
        have := readLineSlice_crlf [] rest (by simp)
        simp only [List.nil_append] at this
        simp [readContinuedLineSlice, this]
      simp [readMIMEHeaderLoop, encodeHeaderLines, h1, headerAsRead]
  | cons kv t ih =>
    obtain ⟨k, v⟩ := kv
    cases fuel with
    | zero => exact absurd hf (by simp)
    | succ f =>
      have hvalid' := hvalid
      simp only [List.all_cons, Bool.and_eq_true, validHeaderLine, decide_eq_true_eq] at hvalid'
      obtain ⟨⟨⟨hk, hkv⟩, hv⟩, ht⟩ := hvalid'
      have hbuf : encodeHeaderLines ((k, v) :: t) ++ 13 :: 10 :: rest =
          k ++ 58 :: 32 :: v ++ 13 :: 10 :: (encodeHeaderLines t ++ 13 :: 10 :: rest) := by
        simp [encodeHeaderLines]
      have hline := readContinuedLineSlice_header k v (encodeHeaderLines t ++ 13 :: 10 :: rest)
        hk hkv hv (startsPlain_headerLines t rest ht)
      have h58 : (58 : UInt8) ∉ k := by
        intro hm
        exact (fieldByte_facts 58 (List.all_eq_true.mp hkv 58 hm)).2.2.1 rfl
      have hval : (((32 : UInt8) :: v).reverse.dropWhile (fun c => c = 32 || c = 9)).reverse.all
          validHeaderValueByte = true := by
        rw [List.all_eq_true]
        intro x hx
        have hx' := rtrim_subset _ _ x hx
        rcases List.mem_cons.mp hx' with rfl | hxv
        · decide
        · exact List.all_eq_true.mp hv x hxv
      have hkey : canonicalCase k true ≠ [] := by
        intro he
        have := canonicalCase_length k true
        rw [he] at this
        exact hk (List.length_eq_zero.mp this.symm)
      rw [hbuf]
      unfold readMIMEHeaderLoop
      rw [hline]
      simp only [List.append_eq_nil, false_and, if_false, List.cons_ne_self, reduceCtorEq,
        and_false]
      rw [span_ne_byte 58 k _ h58]
      simp only [canonicalMIMEHeaderKey_valid k hkv, hval, not_true_eq_false, if_false, hkey]
      rw [ih _ f (by simpa using hf) ht]
      simp [headerAsRead, headerValueAsRead]

theorem headerLines_length (hdr : List (Bytes × Bytes)) :
    hdr.length ≤ (encodeHeaderLines hdr).length := by
  induction hdr with
  | nil => simp
  | cons kv t ih =>
    simp [encodeHeaderLines] at ih ⊢
    omega

theorem readMIMEHeader_lines (hdr : List (Bytes × Bytes)) (rest : Bytes)
    (hvalid : hdr.all validHeaderLine = true) :
    readMIMEHeader (encodeHeaderLines hdr ++ 13 :: 10 :: rest) = .ok (headerAsRead hdr, rest) := by
  have hloop := readMIMEHeaderLoop_lines hdr rest []
    ((encodeHeaderLines hdr ++ 13 :: 10 :: rest).length + 1)
    (by have := headerLines_length hdr; simp; omega) hvalid
  have hplain := startsPlain_headerLines hdr rest hvalid
  unfold readMIMEHeader
  cases hb : encodeHeaderLines hdr ++ 13 :: 10 :: rest with
  | nil => simp at hb
  | cons c t =>
    rw [hb] at hloop hplain
    have hc := hplain c (by simp)
    simp only [hc.1, hc.2, or_self, if_false]
    simpa using hloop


theorem NewReader_framed (body boundary : Bytes) : (NewReader body boundary).framed boundary := by
  simp [NewReader, Reader.framed]

theorem newPart_wellFormed (r : Reader) (p : RawPart) (rest : Bytes)
    (hvalid : p.header.all validHeaderLine = true) (hqp : p.declaresQuotedPrintable = false)
    (hbuf : r.buf = encodeHeaderLines p.header ++ 13 :: 10 :: rest) :
    newPart r = .ok ({ Header := headerAsRead p.header, quotedPrintable := false },
      { r with buf := rest }) := by
  unfold newPart
  rw [hbuf, readMIMEHeader_lines p.header rest hvalid]
  unfold RawPart.declaresQuotedPrintable at hqp
  simp only [decide_eq_false_iff_not] at hqp
  simp [hqp]

/-! ## Locating the delimiter after a payload -/

theorem index_eq_some (s sep : Bytes) (n : Nat) (hn : sep <+: s.drop n)
    (hlt : ∀ j, j < n → ¬ sep <+: s.drop j) : index s sep = some n := by
  induction s generalizing n with
  | nil =>
    have hsep : sep = [] := by simpa using hn
    cases n with
    | zero => simp [index, hsep]
    | succ n' => exact absurd (by simp [hsep]) (hlt 0 (by omega))
  | cons c t ih =>
    cases n with
    | zero =>
      have : sep.isPrefixOf (c :: t) = true := List.isPrefixOf_iff_prefix.mpr (by simpa using hn)
      simp [index, this]
    | succ n' =>
      have h0 : sep.isPrefixOf (c :: t) = false := by
        have := hlt 0 (by omega)
        simp only [List.drop_zero] at this
        cases hp : sep.isPrefixOf (c :: t) with
        | false => rfl
        | true => exact absurd (List.isPrefixOf_iff_prefix.mp hp) this
      have hrec := ih n' (by simpa using hn) (fun j hj => by
        have := hlt (j + 1) (by omega)
        simpa using this)
      simp [index, h0, hrec]

theorem not_prefix_of_index_none (s sep : Bytes) (h : index s sep = none) (j : Nat) :
    ¬ sep <+: s.drop j := by
  induction s generalizing j with
  | nil =>
    intro hp
    have hsep : sep = [] := by simpa using hp
    simp [index, hsep] at h
  | cons c t ih =>
    have h0 : sep.isPrefixOf (c :: t) = false := by
      cases hp : sep.isPrefixOf (c :: t) with
      | false => rfl
      | true => simp [index, hp] at h
    have ht : index t sep = none := by
      simp [index, h0] at h
      exact h
    cases j with
    | zero =>
      intro hp
      have := List.isPrefixOf_iff_prefix.mpr (by simpa using hp : sep <+: c :: t)
      rw [h0] at this
      exact absurd this (by simp)
    | succ j' => simpa using ih ht j'

/-- A delimiter free of carriage returns that does not occur in the payload does not
start anywhere inside the payload once a carriage return follows it. -/
theorem no_delimiter_in_payload (d p t : Bytes) (hd : (13 : UInt8) ∉ d)
    (hp : index p d = none) (j : Nat) (hj : j ≤ p.length) :
    ¬ d <+: (p ++ 13 :: t).drop j := by
  rw [List.drop_append_of_le_length hj]
  intro hpre
  have h2 : p.drop j ++ [13] <+: p.drop j ++ 13 :: t := by
    refine ⟨t, ?_⟩
    simp
  rcases List.prefix_or_prefix_of_prefix hpre h2 with h | h
  · rcases List.prefix_concat_iff.mp h with heq | hq
    · exact hd (by rw [heq]; simp)
    · exact not_prefix_of_index_none p d hp j hq
  · exact hd (h.subset (by simp))

theorem matchAfterPrefix_delimiter (pre t : Bytes) (ht : afterDelimiter t) (e : Error) :
    matchAfterPrefix (pre ++ t) pre (some e) = 1 := by
  unfold matchAfterPrefix
  rcases ht with ⟨t1, rfl⟩ | ⟨t1, rfl⟩
  · simp
  · simp

theorem scanUntilBoundary_payload (b p t : Bytes) (hb : (13 : UInt8) ∉ b)
    (hp : index p (45 :: 45 :: b) = none) (ht : afterDelimiter t) :
    scanUntilBoundary (p ++ 13 :: 10 :: 45 :: 45 :: (b ++ t)) (45 :: 45 :: b)
      (13 :: 10 :: 45 :: 45 :: b) 0 (some .unexpectedEOF) = (p.length, some .eof) := by
  have hd : (13 : UInt8) ∉ 45 :: 45 :: b := by
    simp only [List.mem_cons, not_or]
    exact ⟨by decide, by decide, hb⟩
  have hno := no_delimiter_in_payload (45 :: 45 :: b) p (10 :: 45 :: 45 :: (b ++ t)) hd hp
  -- the delimiter is not at the start of the part body
  have h1 : hasPrefix (p ++ 13 :: 10 :: 45 :: 45 :: (b ++ t)) (45 :: 45 :: b) = false := by
    unfold hasPrefix
    cases hc : (45 :: 45 :: b).isPrefixOf (p ++ 13 :: 10 :: 45 :: 45 :: (b ++ t)) with
    | false => rfl
    | true =>
      have := hno 0 (by omega)
      exact absurd (by simpa using List.isPrefixOf_iff_prefix.mp hc) this
  have h2 : hasPrefix (45 :: 45 :: b) (p ++ 13 :: 10 :: 45 :: 45 :: (b ++ t)) = false := by
    unfold hasPrefix
    cases hc : (p ++ 13 :: 10 :: 45 :: 45 :: (b ++ t)).isPrefixOf (45 :: 45 :: b) with
    | false => rfl
    | true =>
      have := (List.isPrefixOf_iff_prefix.mp hc).subset
      exact absurd (this (by simp)) hd
  -- the first line break followed by the delimiter is the one after the payload
  have h3 : index (p ++ 13 :: 10 :: 45 :: 45 :: (b ++ t)) (13 :: 10 :: 45 :: 45 :: b) =
      some p.length := by
    apply index_eq_some
    · rw [List.drop_left]
      exact ⟨t, by simp⟩
    · intro j hj hpre
      rw [List.drop_append_of_le_length (by omega)] at hpre
      have hq : (p.drop j).length = p.length - j := by simp
      cases hq1 : p.drop j with
      | nil => rw [hq1] at hq; simp at hq; omega
      | cons a q1 =>
        rw [hq1] at hpre
        have hpre1 := (List.cons_prefix_cons.mp hpre).2
        cases hq2 : q1 with
        | nil =>
          rw [hq2] at hpre1
          have := (List.cons_prefix_cons.mp hpre1).1
          exact absurd this (by decide)
        | cons a2 q2 =>
          rw [hq2] at hpre1
          have hpre2 := (List.cons_prefix_cons.mp hpre1).2
          have hlen : j + 2 ≤ p.length := by
            rw [hq1, hq2] at hq
            simp at hq
            omega
          have hdrop : p.drop (j + 2) = q2 := by
            have : p.drop (j + 2) = (p.drop j).drop 2 := by
              rw [List.drop_drop]
            rw [this, hq1, hq2]
            rfl
          have := hno (j + 2) hlen
          rw [List.drop_append_of_le_length hlen, hdrop] at this
          exact this hpre2
  have h4 : matchAfterPrefix ((p ++ 13 :: 10 :: 45 :: 45 :: (b ++ t)).drop p.length)
      (13 :: 10 :: 45 :: 45 :: b) (some .unexpectedEOF) = 1 := by
    rw [List.drop_left]
    have := matchAfterPrefix_delimiter (13 :: 10 :: 45 :: 45 :: b) t ht .unexpectedEOF
    simpa using this
  unfold scanUntilBoundary
  simp only [h1, h2, h3, h4]
  simp

theorem readPartRaw_payload (r : Reader) (b p t : Bytes) (fuel : Nat) (hr : r.framed b)
    (hb : (13 : UInt8) ∉ b) (hp : index p (45 :: 45 :: b) = none) (ht : afterDelimiter t) :
    readPartRaw (fuel + 1) r (p ++ 13 :: 10 :: 45 :: 45 :: (b ++ t)) 0 [] =
      (p, 13 :: 10 :: 45 :: 45 :: (b ++ t), none) := by
  obtain ⟨_, hdb, hnl, _⟩ := hr
  unfold readPartRaw
  rw [hdb, hnl, scanUntilBoundary_payload b p t hb hp ht]
  simp

theorem Part.readAll_payload (r : Reader) (b p t : Bytes) (hdr : List (Bytes × Bytes))
    (hr : r.framed b) (hb : (13 : UInt8) ∉ b) (hp : index p (45 :: 45 :: b) = none)
    (ht : afterDelimiter t) (hbuf : r.buf = p ++ 13 :: 10 :: 45 :: 45 :: (b ++ t)) :
    Part.readAll { Header := hdr, quotedPrintable := false } r =
      (.ok p, { r with buf := 13 :: 10 :: 45 :: 45 :: (b ++ t) }) := by
  unfold Part.readAll
  rw [hbuf, readPartRaw_payload r b p t _ hr hb hp ht]
  simp

/-! ## Delimiter lines -/

theorem skipLWSPChar_crlf : skipLWSPChar [13, 10] = [13, 10] := by decide

theorem skipLWSPChar_closing : skipLWSPChar [45, 45, 13, 10] = [45, 45, 13, 10] := by decide

theorem hasPrefix_append (pre t : Bytes) : hasPrefix (pre ++ t) pre = true := by
  unfold hasPrefix
  exact List.isPrefixOf_iff_prefix.mpr ⟨t, rfl⟩

/-- A delimiter line `--boundary` CRLF opens a part: the loop hands over to `newPart`. -/
theorem nextPartLoop_delimiter (r : Reader) (b X : Bytes) (fuel : Nat) (e : Bool)
    (hr : r.framed b) (hb : (10 : UInt8) ∉ b)
    (hbuf : r.buf = 45 :: 45 :: (b ++ 13 :: 10 :: X)) :
    r.nextPartLoop (fuel + 1) e = newPart { r with buf := X, partsRead := r.partsRead + 1 } := by
  obtain ⟨hnl, hdb, hndb, hdbd⟩ := hr
  have hspan : r.buf.span (· != 10) = (45 :: 45 :: (b ++ [13]), 10 :: X) := by
    rw [hbuf]
    have := span_ne_byte 10 (45 :: 45 :: (b ++ [13])) X (by
      simp only [List.mem_cons, List.mem_append, List.mem_singleton, not_or]
      exact ⟨by decide, by decide, hb, by decide, by simp⟩)
    simpa using this
  have hline : 45 :: 45 :: (b ++ [13]) ++ [10] = (45 :: 45 :: b) ++ [13, 10] := by simp
  have hdelim : r.isBoundaryDelimiterLine ((45 :: 45 :: b) ++ [13, 10]) = (true, r) := by
    unfold Reader.isBoundaryDelimiterLine
    rw [hdb, hasPrefix_append]
    simp only [not_true_eq_false, if_false, List.drop_left, skipLWSPChar_crlf]
    simp [hnl]
  unfold Reader.nextPartLoop
  rw [hspan]
  simp only [hline, hdelim]
  simp

/-- The closing delimiter line `--boundary--` CRLF ends the stream with `io.EOF`. -/
theorem nextPartLoop_closing (r : Reader) (b : Bytes) (fuel : Nat) (e : Bool)
    (hr : r.framed b) (hb : (10 : UInt8) ∉ b)
    (hbuf : r.buf = 45 :: 45 :: (b ++ [45, 45, 13, 10])) :
    r.nextPartLoop (fuel + 1) e = .error .eof := by
  obtain ⟨hnl, hdb, hndb, hdbd⟩ := hr
  have hspan : r.buf.span (· != 10) = (45 :: 45 :: (b ++ [45, 45, 13]), [10]) := by
    rw [hbuf]
    have := span_ne_byte 10 (45 :: 45 :: (b ++ [45, 45, 13])) [] (by
      simp only [List.mem_cons, List.mem_append, not_or]
      exact ⟨by decide, by decide, hb, by decide, by decide, by decide, by simp⟩)
    simpa using this
  have hline : 45 :: 45 :: (b ++ [45, 45, 13]) ++ [10] = (45 :: 45 :: b) ++ [45, 45, 13, 10] := by
    simp
  have hline2 : (45 :: 45 :: b) ++ [45, 45, 13, 10] = (45 :: 45 :: b ++ [45, 45]) ++ [13, 10] := by
    simp
  have hdelim : r.isBoundaryDelimiterLine ((45 :: 45 :: b) ++ [45, 45, 13, 10]) = (false, r) := by
    unfold Reader.isBoundaryDelimiterLine
    rw [hdb, hasPrefix_append]
    simp only [not_true_eq_false, if_false, List.drop_left, skipLWSPChar_closing]
    simp [hnl]
  have hfinal : r.isFinalBoundary ((45 :: 45 :: b) ++ [45, 45, 13, 10]) = true := by
    unfold Reader.isFinalBoundary
    rw [hdbd, hline2, hasPrefix_append]
    simp only [not_true_eq_false, if_false, List.drop_left, skipLWSPChar_crlf]
    simp [hnl]
  unfold Reader.nextPartLoop
  rw [hspan]
  simp only [hline, hdelim, hfinal]
  simp

/-- The line break that ends a payload is stepped over, whatever `partsRead` is. -/
theorem nextPartLoop_blank (r : Reader) (b Y : Bytes) (fuel : Nat)
    (hr : r.framed b) (hbuf : r.buf = 13 :: 10 :: Y) :
    ∃ e, r.nextPartLoop (fuel + 1) false = Reader.nextPartLoop fuel { r with buf := Y } e := by
  obtain ⟨hnl, hdb, hndb, hdbd⟩ := hr
  have hspan : r.buf.span (· != 10) = ([13], 10 :: Y) := by
    rw [hbuf]
    have := span_ne_byte 10 [13] Y (by decide)
    simp
  have hdelim : r.isBoundaryDelimiterLine [13, 10] = (false, r) := by
    unfold Reader.isBoundaryDelimiterLine
    rw [hdb]
    simp [hasPrefix, List.isPrefixOf]
  have hfinal : r.isFinalBoundary [13, 10] = false := by
    unfold Reader.isFinalBoundary
    rw [hdbd]
    simp [hasPrefix, List.isPrefixOf]
  by_cases h0 : r.partsRead = 0
  · refine ⟨false, ?_⟩
    conv_lhs => unfold Reader.nextPartLoop
    rw [hspan]
    simp only [List.singleton_append, hdelim, hfinal]
    simp [h0]
  · refine ⟨true, ?_⟩
    conv_lhs => unfold Reader.nextPartLoop
    rw [hspan]
    simp only [List.singleton_append, hdelim, hfinal]
    simp [h0, hnl]

/-! ## Reading a well-formed stream part by part -/

theorem encodeMultipart_nil (b : Bytes) :
    encodeMultipart b [] = 45 :: 45 :: (b ++ [45, 45, 13, 10]) := by
  simp [encodeMultipart]

theorem encodeMultipart_cons (b : Bytes) (p : RawPart) (ps : List RawPart) :
    encodeMultipart b (p :: ps) =
      45 :: 45 :: (b ++ 13 :: 10 :: (encodeHeaderLines p.header ++
        13 :: 10 :: (p.payload ++ 13 :: 10 :: encodeMultipart b ps))) := by
  simp [encodeMultipart, encodePart]

theorem encodeMultipart_afterDelimiter (b : Bytes) (ps : List RawPart) :
    ∃ t, encodeMultipart b ps = 45 :: 45 :: (b ++ t) ∧ afterDelimiter t := by
  cases ps with
  | nil => exact ⟨[45, 45, 13, 10], encodeMultipart_nil b, Or.inr ⟨[13, 10], rfl⟩⟩
  | cons p ps => exact ⟨_, encodeMultipart_cons b p ps, Or.inl ⟨_, rfl⟩⟩

theorem encodeMultipart_length (b : Bytes) (ps : List RawPart) :
    ps.length < (encodeMultipart b ps).length := by
  induction ps with
  | nil => simp [encodeMultipart_nil]
  | cons p ps ih =>
    rw [encodeMultipart_cons]
    simp only [List.length_cons, List.length_append]
    omega

theorem framed_with (r : Reader) (b buf : Bytes) (n : Nat) (hr : r.framed b) :
    Reader.framed { r with buf := buf, partsRead := n } b := hr

theorem nextPartLoop_stream_cons (r : Reader) (b : Bytes) (p : RawPart) (ps : List RawPart)
    (fuel : Nat) (e : Bool) (hr : r.framed b) (hvb : validBoundary b) (hwf : p.wellFormed b)
    (hbuf : r.buf = encodeMultipart b (p :: ps)) :
    r.nextPartLoop (fuel + 1) e =
      .ok ({ Header := headerAsRead p.header, quotedPrintable := false },
        { r with buf := p.payload ++ 13 :: 10 :: encodeMultipart b ps
                 partsRead := r.partsRead + 1 }) := by
  rw [encodeMultipart_cons] at hbuf
  rw [nextPartLoop_delimiter r b _ fuel e hr hvb.2.2.1 hbuf]
  rw [newPart_wellFormed _ p (p.payload ++ 13 :: 10 :: encodeMultipart b ps) hwf.1 hwf.2.1 rfl]

theorem nextPartLoop_stream_nil (r : Reader) (b : Bytes) (fuel : Nat) (e : Bool)
    (hr : r.framed b) (hvb : validBoundary b) (hbuf : r.buf = encodeMultipart b []) :
    r.nextPartLoop (fuel + 1) e = .error .eof := by
  rw [encodeMultipart_nil] at hbuf
  exact nextPartLoop_closing r b fuel e hr hvb.2.2.1 hbuf


theorem NextPart_cons (r : Reader) (b : Bytes) (p : RawPart) (ps : List RawPart)
    (hat : r.atParts b (p :: ps)) (hvb : validBoundary b) (hwf : p.wellFormed b) :
    r.NextPart =
      .ok ({ Header := headerAsRead p.header, quotedPrintable := false },
        { r with buf := p.payload ++ 13 :: 10 :: encodeMultipart b ps
                 partsRead := r.partsRead + 1 }) := by
  obtain ⟨hr, hbuf⟩ := hat
  have hdb : r.dashBoundary ≠ [45, 45] := by
    rw [hr.2.1]
    intro h
    exact hvb.1 (by simpa using h)
  unfold Reader.NextPart
  simp only [hdb, if_false]
  rcases hbuf with hbuf | hbuf
  · exact nextPartLoop_stream_cons r b p ps _ false hr hvb hwf hbuf
  · have hlen : r.buf.length + 1 = ((encodeMultipart b (p :: ps)).length + 1) + 1 + 1 := by
      rw [hbuf]
      simp
    rw [hlen]
    obtain ⟨e, he⟩ := nextPartLoop_blank r b (encodeMultipart b (p :: ps))
      ((encodeMultipart b (p :: ps)).length + 1 + 1) hr hbuf
    rw [he]
    rw [nextPartLoop_stream_cons { r with buf := encodeMultipart b (p :: ps) } b p ps _ e
      hr hvb hwf rfl]

theorem NextPart_nil (r : Reader) (b : Bytes) (hat : r.atParts b []) (hvb : validBoundary b) :
    r.NextPart = .error .eof := by
  obtain ⟨hr, hbuf⟩ := hat
  have hdb : r.dashBoundary ≠ [45, 45] := by
    rw [hr.2.1]
    intro h
    exact hvb.1 (by simpa using h)
  unfold Reader.NextPart
  simp only [hdb, if_false]
  rcases hbuf with hbuf | hbuf
  · exact nextPartLoop_stream_nil r b _ false hr hvb hbuf
  · have hlen : r.buf.length + 1 = ((encodeMultipart b []).length + 1) + 1 + 1 := by
      rw [hbuf]
      simp
    rw [hlen]
    obtain ⟨e, he⟩ := nextPartLoop_blank r b (encodeMultipart b [])
      ((encodeMultipart b []).length + 1 + 1) hr hbuf
    rw [he]
    exact nextPartLoop_stream_nil { r with buf := encodeMultipart b [] } b _ e hr hvb rfl

/-- The loop of `getKey` over a well-formed stream appends the payloads in order. -/
theorem partsLoop_stream (b : Bytes) (ps : List RawPart) (r : Reader) (key : Bytes) (fuel : Nat)
    (hat : r.atParts b ps) (hvb : validBoundary b) (hwf : ∀ p ∈ ps, p.wellFormed b)
    (hf : ps.length < fuel) :
    partsLoop fuel r key = .ok (key ++ (ps.map RawPart.payload).flatten) := by
  induction ps generalizing r key fuel with
  | nil =>
    cases fuel with
    | zero => exact absurd hf (by simp)
    | succ f =>
      unfold partsLoop
      rw [NextPart_nil r b hat hvb]
      simp
  | cons p ps ih =>
    cases fuel with
    | zero => exact absurd hf (by simp)
    | succ f =>
      have hp := hwf p (by simp)
      obtain ⟨t, ht, hta⟩ := encodeMultipart_afterDelimiter b ps
      unfold partsLoop
      rw [NextPart_cons r b p ps hat hvb hp]
      simp only []
      rw [Part.readAll_payload
        { r with buf := p.payload ++ 13 :: 10 :: encodeMultipart b ps
                 partsRead := r.partsRead + 1 }
        b p.payload t (headerAsRead p.header) hat.1 hvb.2.1 hp.2.2.1 hta (by simp [ht])]
      simp only []
      have hat2 : Reader.atParts
          { r with buf := 13 :: 10 :: 45 :: 45 :: (b ++ t), partsRead := r.partsRead + 1 } b ps :=
        ⟨hat.1, Or.inr (by simp [ht])⟩
      rw [ih _ (key ++ p.payload) f hat2 (fun q hq => hwf q (by simp [hq])) (by simpa using hf)]
      simp

/-! ## The wire codec reads back what it wrote -/

theorem encodeHeaderLines_append (a b : List (Bytes × Bytes)) :
    encodeHeaderLines (a ++ b) = encodeHeaderLines a ++ encodeHeaderLines b := by
  simp [encodeHeaderLines]

theorem headerLines_eq (h : Header) : headerLines h = encodeHeaderLines h.lines := by
  induction h with
  | nil => rfl
  | cons kv t ih =>
    have hcons : Header.lines (kv :: t) = kv.2.map (fun v => (kv.1, v)) ++ Header.lines t := by
      simp [Header.lines]
    rw [hcons, encodeHeaderLines_append, ← ih]
    simp [headerLines, encodeHeaderLines, List.map_map, Function.comp_def]

/-- Adding the values of one key, one after the other, to a header that ends with that key. -/
theorem collect_values (acc : Header) (k : Bytes) (pre ws : List Bytes)
    (h : k ∉ acc.map Prod.fst) :
    (ws.map (fun v => (k, v))).foldl
        (fun h kv => setEntry h kv.1 ((h.lookup kv.1).getD [] ++ [kv.2])) (acc ++ [(k, pre)]) =
      acc ++ [(k, pre ++ ws)] := by
  induction ws generalizing pre with
  | nil => simp
  | cons w t ih =>
    simp only [List.map_cons, List.foldl_cons]
    rw [lookup_append_last acc k pre h, setEntry_last acc k _ _ h]
    simp only [Option.getD_some]
    rw [ih (pre ++ [w])]
    simp

theorem collect_lines (acc h : Header)
    (hnodup : ((acc ++ h).map Prod.fst).Nodup) (hne : ∀ kv ∈ h, kv.2 ≠ []) :
    h.lines.foldl (fun h kv => setEntry h kv.1 ((h.lookup kv.1).getD [] ++ [kv.2])) acc =
      acc ++ h := by
  induction h generalizing acc with
  | nil => simp [Header.lines]
  | cons kv t ih =>
    obtain ⟨k, vs⟩ := kv
    have hcons : Header.lines ((k, vs) :: t) = vs.map (fun v => (k, v)) ++ Header.lines t := by
      simp [Header.lines]
    have hk : k ∉ acc.map Prod.fst := by
      intro hmem
      simp only [List.map_append, List.map_cons] at hnodup
      have := List.disjoint_of_nodup_append hnodup hmem
      simp at this
    cases vs with
    | nil => exact absurd rfl (hne (k, []) (by simp))
    | cons v ws =>
      rw [hcons, List.foldl_append]
      simp only [List.map_cons, List.foldl_cons]
      rw [lookup_eq_none_of_not_mem acc k hk, setEntry_new acc k _ hk]
      simp only [Option.getD_none, List.nil_append]
      rw [collect_values acc k [v] ws hk]
      rw [ih (acc ++ [(k, [v] ++ ws)]) (by simpa using hnodup)
        (fun kv hkv => hne kv (by simp [hkv]))]
      simp

theorem collectHeader_lines (h : Header) (hnodup : (h.map Prod.fst).Nodup)
    (hne : ∀ kv ∈ h, kv.2 ≠ []) : collectHeader h.lines = h := by
  unfold collectHeader
  rw [collect_lines [] h (by simpa using hnodup) hne]
  simp

theorem headerAsRead_lines (h : Header) (hv : h.all validWireHeader = true) :
    headerAsRead h.lines = h.lines ∧ h.lines.all validHeaderLine = true := by
  induction h with
  | nil => exact ⟨rfl, rfl⟩
  | cons kv t ih =>
    obtain ⟨k, vs⟩ := kv
    have hcons : Header.lines ((k, vs) :: t) = vs.map (fun v => (k, v)) ++ Header.lines t := by
      simp [Header.lines]
    simp only [List.all_cons, Bool.and_eq_true] at hv
    obtain ⟨hkv, ht⟩ := hv
    obtain ⟨ih1, ih2⟩ := ih ht
    simp only [validWireHeader, Bool.and_eq_true, decide_eq_true_eq, List.all_eq_true] at hkv
    obtain ⟨⟨_, hcanon⟩, hvals⟩ := hkv
    rw [hcons]
    constructor
    · unfold headerAsRead at ih1 ⊢
      rw [List.map_append, ih1, List.map_map]
      congr 1
      apply List.map_congr_left
      intro v hv
      simp only [Function.comp_apply, hcanon, (hvals v hv).2]
    · rw [List.all_append, ih2, Bool.and_true, List.all_eq_true]
      intro kv hkv
      obtain ⟨v, hv, rfl⟩ := List.mem_map.mp hkv
      exact (hvals v hv).1

/-- The wire codec hands back what it was given: a response written by `wireWrite`
is read by `wireRead`, as the answer to any request but a `HEAD`, with the same
status, the same header and the same body. -/
theorem wireRead_wireWrite (resp : Response) (req : Request) (bytes : Bytes)
    (hwire : resp.onWire) (hm : req.Method ≠ bytesOf "HEAD")
    (hw : wireWrite resp = .ok bytes) : wireRead bytes req = .ok resp := by
  obtain ⟨status, header, body⟩ := resp
  obtain ⟨data, err⟩ := body
  obtain ⟨hstatus, hnodup, hvalid⟩ := hwire
  simp only at hstatus hnodup hvalid
  cases err with
  | some e => simp [wireWrite] at hw
  | none =>
    simp only [wireWrite, Except.ok.injEq] at hw
    subst hw
    have hne : ∀ kv ∈ header, kv.2 ≠ [] := by
      intro kv hkv
      have := List.all_eq_true.mp hvalid kv hkv
      simp only [validWireHeader, Bool.and_eq_true, decide_eq_true_eq] at this
      exact this.1.1
    obtain ⟨hread, hlinesvalid⟩ := headerAsRead_lines header hvalid
    have hline : readLineSlice (bytesOf "HTTP/1.1 " ++ status ++ [13, 10] ++ headerLines header ++
        [13, 10] ++ data) =
        some (bytesOf "HTTP/1.1 " ++ status, encodeHeaderLines header.lines ++ 13 :: 10 :: data) := by
      have h10 : (10 : UInt8) ∉ bytesOf "HTTP/1.1 " ++ status := by
        simp only [List.mem_append, not_or]
        exact ⟨by decide, hstatus⟩
      have := readLineSlice_crlf (bytesOf "HTTP/1.1 " ++ status)
        (encodeHeaderLines header.lines ++ 13 :: 10 :: data) h10
      rw [← this, headerLines_eq]
      simp
    unfold wireRead
    rw [hline]
    simp only [readMIMEHeader_lines header.lines data hlinesvalid, hread,
      collectHeader_lines header hnodup hne, hm, if_false]
    have hp : hasPrefix (bytesOf "HTTP/1.1 " ++ status) (bytesOf "HTTP/1.1 ") = true := by
      simp [hasPrefix]
    have hd : (bytesOf "HTTP/1.1 " ++ status).drop 9 = status := by
      have : (bytesOf "HTTP/1.1 ").length = 9 := by decide
      rw [← this, List.drop_left]
    simp [hp, hd, nopCloser]

/-! ## C2: replay of a cached response -/

/-- The replay of an entry that the cache has taken and applied. -/
theorem RoundTrip_replay_applied (env env2 : Env) (cache : Cache) (req req1 req2 : Request)
    (key bytes : Bytes) (resp : Response) (victims : List Bytes)
    (hc : ParseBool (Header.Get req.Header (bytesOf "X-Cache")) = .ok true)
    (hk : getKey req = (.ok key, req1))
    (hs : cache.store.lookup key = none)
    (hu : env.transport req1 = .ok resp)
    (hw : env.write resp = .ok bytes)
    (ha : env.policy { cache with misses := cache.misses + 1 } key bytes bytes.length =
      some victims)
    (hv : key ∉ victims)
    (hc2 : ParseBool (Header.Get req2.Header (bytesOf "X-Cache")) = .ok true)
    (hurl : req2.URL = req.URL) (hbody : req2.Body = req.Body)
    (hct : Header.Get req2.Header (bytesOf "Content-Type") =
      Header.Get req.Header (bytesOf "Content-Type"))
    (hmf : req2.MultipartForm = req.MultipartForm) :
    CachingTransport.RoundTrip env2
        (CachingTransport.RoundTrip env cache req).cache.processItems req2 =
      { resp := env2.readResponse bytes (getKey req2).2, req := (getKey req2).2
        cache := { (CachingTransport.RoundTrip env cache req).cache.processItems with
          hits := cache.hits + 1 }
        upstream := [], gets := [key], sets := [], log := [] } := by
  have hk2 : getKey req2 = (.ok key, (getKey req2).2) := by
    have h1 := (getKey_congr req2 req hurl hbody hct hmf).1
    rw [hk] at h1
    exact Prod.ext h1 rfl
  have hfirst := RoundTrip_on_miss env cache req req1 key bytes resp victims hc hk hs hu hw ha
  have hstore : (CachingTransport.RoundTrip env cache req).cache.processItems.store.lookup key =
      some bytes :=
    Cache.lookup_processItems _ cache.setBuf key bytes victims (by rw [hfirst]) hv
  rw [RoundTrip_on_hit env2 _ req2 (getKey req2).2 key bytes hc2 hk2 hstore]
  rw [hfirst]
  rfl

/-- C5, refuted as stated. The Content-Type `multipart/related; boundary=x` starts
with `multipart/` and the body is the well-formed stream of the parts `a` and `bb`
with boundary `x`, but `MultipartReader` accepts only `multipart/form-data` and
`multipart/mixed`: `getKey` fails with `http.ErrNotMultipart` and returns no key. -/
theorem getKey_multipart_related_rejected :
    hasPrefix (Header.Get relatedTwoPart.Header (bytesOf "Content-Type"))
        (bytesOf "multipart/") = true ∧
      relatedTwoPart.Body = some (nopCloser (encodeMultipart (bytesOf "x") twoParts)) ∧
      validBoundary (bytesOf "x") ∧
      (∀ p ∈ twoParts, p.wellFormed (bytesOf "x")) ∧
      (getKey relatedTwoPart).1 = .error .notMultipart ∧
      (getKey relatedTwoPart).1 ≠ .ok (bytesOf "/uploadabb") := by
  decide

/-- C5, amended. Let the Content-Type start with `multipart/` and be accepted by
`MultipartReader` (media type `multipart/form-data` or `multipart/mixed`) with
boundary `b`, the boundary `mime.ParseMediaType` arrives at, RFC 2231 forms
included. Let the body be the well-formed multipart stream with boundary `b` and
parts `p1 .. pn` (`b` of 1 to 70 bytes without CR or LF; per part valid header lines
within the limits of the reader, no request for quoted-printable decoding, no
`--b` in the payload). Then `getKey` returns the URL bytes followed by the payloads
of `p1, .., pn` in that order, without part headers and without boundary framing. -/
theorem getKey_multipart (req : Request) (b : Bytes) (parts : List RawPart)
    (hct : hasPrefix (Header.Get req.Header (bytesOf "Content-Type")) (bytesOf "multipart/") =
      true)
    (hmf : req.MultipartForm = .unset)
    (hmb : multipartBoundary req.Header = .ok b)
    (hvb : validBoundary b)
    (hwf : ∀ p ∈ parts, p.wellFormed b)
    (hbody : req.Body = some (nopCloser (encodeMultipart b parts))) :
    getKey req =
      (.ok (req.URL ++ (parts.map RawPart.payload).flatten),
        { req with MultipartForm := .byReader }) := by
  obtain ⟨m, u, h, body, f⟩ := req
  simp only at hct hmf hmb hbody
  subst hmf hbody
  have hloop := partsLoop_stream b parts (NewReader (encodeMultipart b parts) b) u
    ((encodeMultipart b parts).length + 1)
    ⟨NewReader_framed _ b, Or.inl rfl⟩ hvb hwf
    (by have := encodeMultipart_length b parts; omega)
  unfold getKey
  simp only [nopCloser, hct, if_true]
  unfold Request.MultipartReader
  simp only [hmb, hloop, ne_nil_of_hasPrefix_multipart _ hct, if_false]

/-- The boundary is the one `ParseMediaType` arrives at: given in the extended form
of RFC 2231, alone or overriding a plain `boundary=y`, the boundary `x` frames the
parts `a` and `bb`. -/
theorem getKey_multipart_extended :
    (getKey extendedTwoPart).1 = .ok (bytesOf "/uploadabb") ∧
      (getKey overriddenTwoPart).1 = .ok (bytesOf "/uploadabb") := by
  decide

/-- C5 amended, at the scenario of the specification: the parts `a` and `bb` sent to
`/upload` give the key `/uploadabb`. -/
theorem getKey_multipart_witness :
    (getKey formTwoPart).1 = .ok (bytesOf "/uploadabb") :=
  (congrArg Prod.fst (getKey_multipart formTwoPart (bytesOf "x") twoParts
    (by decide) rfl (by decide) (by decide) (by decide) (by decide))).trans (by decide)

end CachingProxy
